import Mathlib

/-!
Verification of the SCons Qt5 tool plugin (`src/config/qt5/__init__.py`).

The Python module is shallowly embedded below.  External effects (the process
environment, `env.WhereIs` executable-search, the `moc -v` subprocess output,
the filesystem, `pkg-config`, `winepath`) are modelled as explicit inputs to
the embedded functions; everything the plugin itself computes is translated
statement by statement from the source.
-/

namespace Qt5

/-! ## Small Python / path helpers -/

/-- Last index of a character in a list of chars. -/
def lastIdxOf (c : Char) (l : List Char) : Option Nat :=
  match l.reverse.findIdx? (fun d => d = c) with
  | some j => some (l.length - 1 - j)
  | none => none

/-- `posixpath.dirname` on a character list: `i = p.rfind('/') + 1`,
`head = p[:i]`, and if `head` is non-empty and not all slashes, strip the
trailing slashes. -/
def pyDirnameL (l : List Char) : List Char :=
  match lastIdxOf '/' l with
  | none => []
  | some k =>
    let head := l.take (k + 1)
    if head ≠ [] ∧ head.any (fun c => c ≠ '/') then
      (head.reverse.dropWhile (fun c => c = '/')).reverse
    else head

/-- `os.path.dirname` (POSIX flavour) on strings. -/
def pyDirname (s : String) : String := ⟨pyDirnameL s.data⟩

/-- Base name: the part of the path after the last `/`. -/
def baseOf (s : String) : String := ⟨(s.data.reverse.takeWhile (fun c => c ≠ '/')).reverse⟩

/-- `os.path.join d f` for our purposes (`d` empty means the current dir). -/
def pyJoin (d f : String) : String := if d = "" then f else d ++ "/" ++ f

/-- `SCons.Util.splitext`: split at the last dot, provided it comes after the
last path separator. -/
def splitExtSCons (p : String) : String × String :=
  let dot := lastIdxOf '.' p.data
  let sep := lastIdxOf '/' p.data
  let dotI : Int := match dot with | some k => (k : Int) | none => -1
  let sepI : Int := match sep with | some k => (k : Int) | none => -1
  if sepI < dotI then
    (⟨p.data.take dotI.toNat⟩, ⟨p.data.drop dotI.toNat⟩)
  else (p, "")

/-- Python `\s` (ASCII whitespace). -/
def pyIsSpace (c : Char) : Bool :=
  c = ' ' || c = '\t' || c = '\n' || c = '\r' || c = '\x0b' || c = '\x0c'

/-- Python `int(s)`: strip whitespace, optional sign, non-empty digit run. -/
def pyInt? (s : String) : Option Int :=
  let t := ((s.data.dropWhile pyIsSpace).reverse.dropWhile pyIsSpace).reverse
  match t with
  | '-' :: ds => if ds ≠ [] ∧ ds.all Char.isDigit then
      some (-(Int.ofNat (ds.foldl (fun a c => a * 10 + (c.toNat - '0'.toNat)) 0))) else none
  | '+' :: ds => if ds ≠ [] ∧ ds.all Char.isDigit then
      some (Int.ofNat (ds.foldl (fun a c => a * 10 + (c.toNat - '0'.toNat)) 0)) else none
  | ds => if ds ≠ [] ∧ ds.all Char.isDigit then
      some (Int.ofNat (ds.foldl (fun a c => a * 10 + (c.toNat - '0'.toNat)) 0)) else none

/-! ## Build-environment values -/

/-- A (simplified) dynamic value held in a build-environment entry. -/
inductive Val where
  | s (v : String)
  | i (n : Int)
  | ls (l : List String)
deriving DecidableEq, Repr

/-- The construction-variable table of a build environment, as an
association list (first binding of a key wins, like a dict). -/
abbrev EnvT := List (String × Val)

def lookupVar (e : EnvT) (k : String) : Option Val :=
  match e with
  | [] => none
  | (k2, v) :: rest => if k2 = k then some v else lookupVar rest k

/-- Dict assignment `env[k] = v`. -/
def setVar (e : EnvT) (k : String) (v : Val) : EnvT :=
  match e with
  | [] => [(k, v)]
  | (k2, v2) :: rest => if k2 = k then (k2, v) :: rest else (k2, v2) :: setVar rest k v

/-! ## The Installation Locator (`_detect`) -/

/-- External inputs consulted by `_detect`: the process environment, the
executable search (`env.WhereIs`) and the output of running `<moc> -v`. -/
structure DetectCtx where
  osQT5DIR : Option String
  osQTDIR : Option String
  whereIs : String → Option String
  mocOutput : String → String

/-- Python truthiness filter for a `WhereIs` result (`None` and `""` are
falsy in `a or b` chains). -/
def pyTruthyStr (o : Option String) : Option String :=
  match o with
  | some p => if p = "" then none else some p
  | none => none

/-- `env.WhereIs('moc-qt5') or env.WhereIs('moc5') or env.WhereIs('moc')`. -/
def findMoc (ctx : DetectCtx) : Option String :=
  match pyTruthyStr (ctx.whereIs "moc-qt5") with
  | some p => some p
  | none =>
    match pyTruthyStr (ctx.whereIs "moc5") with
    | some p => some p
    | none => pyTruthyStr (ctx.whereIs "moc")

def digitsToNat (l : List Char) : Nat :=
  l.foldl (fun a c => a * 10 + (c.toNat - '0'.toNat)) 0

/-- Try to parse `\d+\.\d+\.\d+` as a prefix of `l` (each group is the
maximal digit run, as the regex engine produces after backtracking). -/
def parseTripleAt (l : List Char) : Option (Nat × Nat × Nat) :=
  let r1 := l.takeWhile Char.isDigit
  if r1 = [] then none else
  match l.drop r1.length with
  | '.' :: rest2 =>
    let r2 := rest2.takeWhile Char.isDigit
    if r2 = [] then none else
    (match rest2.drop r2.length with
     | '.' :: rest3 =>
       let r3 := rest3.takeWhile Char.isDigit
       if r3 = [] then none else some (digitsToNat r1, digitsToNat r2, digitsToNat r3)
     | _ => none)
  | _ => none

/-- The triple at the latest starting position where one parses; this is the
match produced by `re.match(r'.*(\d+)\.(\d+)\.(\d+).*', s)` (the greedy
leading `.*` pushes the groups as far right as possible). -/
def lastTriple (l : List Char) : Option (Nat × Nat × Nat) :=
  match l with
  | [] => none
  | _ :: rest =>
    match lastTriple rest with
    | some t => some t
    | none => parseTripleAt l

/-- `mocver_re.match(vernumber)`: `re.match` anchors at the start and the
leading `.*` cannot cross a newline, so only the first line is examined. -/
def mocverMatch (out : String) : Option (Nat × Nat × Nat) :=
  lastTriple (out.data.takeWhile (fun c => c ≠ '\n'))

/-- Python list comparison `[a, b, c] < [x, y, z]` (lexicographic). -/
def tripleLt (x y : Nat × Nat × Nat) : Bool :=
  x.1 < y.1 || (x.1 = y.1 && (x.2.1 < y.2.1 || (x.2.1 = y.2.1 && x.2.2 < y.2.2)))

inductive DetectErr where
  /-- `Exception("QT5DIR variable not defined, and detected moc is for Qt a.b.c")` -/
  | oldMoc (major minor patch : Nat)
  /-- `SCons.Errors.StopError(QtdirNotFound, "Could not detect Qt 5 installation")` -/
  | notFound
deriving DecidableEq, Repr

/-- Result of `_detect`, together with whether the non-fatal
`QtdirNotFound` warning ("using moc executable as a hint") was emitted. -/
structure DetectRes where
  res : Except DetectErr Val
  warned : Bool
deriving Repr

/-- The executable-search-path probing tail of `_detect` (lines 452-476):
find a `moc`, query its version, gate on `< [5, 0, 0]`, and otherwise return
the grandparent directory of the executable with a warning. -/
def mocProbe (ctx : DetectCtx) : DetectRes :=
  match findMoc ctx with
  | some moc =>
    (match mocverMatch (ctx.mocOutput moc) with
     | some v =>
       if tripleLt v (5, 0, 0) then
         { res := .error (.oldMoc v.1 v.2.1 v.2.2), warned := false }
       else { res := .ok (.s (pyDirname (pyDirname moc))), warned := true }
     | none => { res := .ok (.s (pyDirname (pyDirname moc))), warned := true })
  | none => { res := .error .notFound, warned := false }

/-- `_detect(env)`: four `try/except KeyError` lookups in precedence order,
then the probing tail. -/
def detect (env : EnvT) (ctx : DetectCtx) : DetectRes :=
  match lookupVar env "QT5DIR" with
  | some v => { res := .ok v, warned := false }
  | none =>
    match lookupVar env "QTDIR" with
    | some v => { res := .ok v, warned := false }
    | none =>
      match ctx.osQT5DIR with
      | some p => { res := .ok (.s p), warned := false }
      | none =>
        match ctx.osQTDIR with
        | some p => { res := .ok (.s p), warned := false }
        | none => mocProbe ctx

/-! ## C2: locator precedence -/

/-- C2. For every combination of `QT5DIR`/`QTDIR` present or absent in the
build environment and the process environment, `_detect` returns the first
present value in the order build-env `QT5DIR`, build-env `QTDIR`, process-env
`QT5DIR`, process-env `QTDIR`; executable probing happens only when all four
are absent, and once a higher-precedence source is present the result does
not depend on any lower-precedence source (stated as invariance under
replacing the whole lower-precedence context). -/
theorem detect_precedence (env env2 : EnvT) (c1 c2 : DetectCtx) :
    (∀ v, lookupVar env "QT5DIR" = some v →
      detect env c1 = ⟨.ok v, false⟩) ∧
    (lookupVar env "QT5DIR" = none → ∀ v, lookupVar env "QTDIR" = some v →
      detect env c1 = ⟨.ok v, false⟩) ∧
    (lookupVar env "QT5DIR" = none → lookupVar env "QTDIR" = none →
      ∀ p, c1.osQT5DIR = some p → detect env c1 = ⟨.ok (.s p), false⟩) ∧
    (lookupVar env "QT5DIR" = none → lookupVar env "QTDIR" = none →
      c1.osQT5DIR = none → ∀ p, c1.osQTDIR = some p →
      detect env c1 = ⟨.ok (.s p), false⟩) ∧
    (lookupVar env "QT5DIR" = none → lookupVar env "QTDIR" = none →
      c1.osQT5DIR = none → c1.osQTDIR = none →
      detect env c1 = mocProbe c1) ∧
    (∀ v, lookupVar env "QT5DIR" = some v → lookupVar env2 "QT5DIR" = some v →
      detect env c1 = detect env2 c2) ∧
    (lookupVar env "QT5DIR" = none → lookupVar env2 "QT5DIR" = none →
      ∀ v, lookupVar env "QTDIR" = some v → lookupVar env2 "QTDIR" = some v →
      detect env c1 = detect env2 c2) ∧
    (lookupVar env "QT5DIR" = none → lookupVar env "QTDIR" = none →
      ∀ p, c1.osQT5DIR = some p → c2.osQT5DIR = some p →
      detect env c1 = detect env c2) ∧
    (lookupVar env "QT5DIR" = none → lookupVar env "QTDIR" = none →
      c1.osQT5DIR = none → c2.osQT5DIR = none →
      ∀ p, c1.osQTDIR = some p → c2.osQTDIR = some p →
      detect env c1 = detect env c2) := by
  refine ⟨?_, ?_, ?_, ?_, ?_, ?_, ?_, ?_, ?_⟩ <;>
    simp only [detect] <;> intros <;>
    simp_all

/-- Witness for C2: concrete instantiations discharging each hypothesis. -/
theorem detect_precedence_witness :
    detect [("QT5DIR", Val.s "/qt")]
      ⟨some "/other", some "/other2", fun _ => none, fun _ => ""⟩ =
      ⟨.ok (Val.s "/qt"), false⟩ ∧
    detect [("QTDIR", Val.s "/qt4dir")]
      ⟨none, some "/other2", fun _ => none, fun _ => ""⟩ =
      ⟨.ok (Val.s "/qt4dir"), false⟩ ∧
    detect [] ⟨some "/osqt5", some "/other2", fun _ => none, fun _ => ""⟩ =
      ⟨.ok (Val.s "/osqt5"), false⟩ ∧
    detect [] ⟨none, some "/osqt", fun _ => none, fun _ => ""⟩ =
      ⟨.ok (Val.s "/osqt"), false⟩ ∧
    detect [] ⟨none, none, fun _ => none, fun _ => ""⟩ =
      mocProbe ⟨none, none, fun _ => none, fun _ => ""⟩ := by
  refine ⟨?_, ?_, ?_, ?_, ?_⟩
  · exact (detect_precedence [("QT5DIR", Val.s "/qt")] []
      ⟨some "/other", some "/other2", fun _ => none, fun _ => ""⟩
      ⟨none, none, fun _ => none, fun _ => ""⟩).1 _ rfl
  · exact (detect_precedence [("QTDIR", Val.s "/qt4dir")] []
      ⟨none, some "/other2", fun _ => none, fun _ => ""⟩
      ⟨none, none, fun _ => none, fun _ => ""⟩).2.1 rfl _ rfl
  · exact (detect_precedence [] []
      ⟨some "/osqt5", some "/other2", fun _ => none, fun _ => ""⟩
      ⟨none, none, fun _ => none, fun _ => ""⟩).2.2.1 rfl rfl _ rfl
  · exact (detect_precedence [] []
      ⟨none, some "/osqt", fun _ => none, fun _ => ""⟩
      ⟨none, none, fun _ => none, fun _ => ""⟩).2.2.2.1 rfl rfl rfl _ rfl
  · exact (detect_precedence [] []
      ⟨none, none, fun _ => none, fun _ => ""⟩
      ⟨none, none, fun _ => none, fun _ => ""⟩).2.2.2.2.1 rfl rfl rfl rfl

/-! ## C3: version gate of the probing fallback -/

/-- C3. When no `QT5DIR`/`QTDIR` hint is present and a `moc` executable is
found on the search path, the locator queries its version: if the version
pattern matches and the triple is lexicographically below `(5,0,0)` it raises
a fatal error reporting that version; if the pattern does not match it
accepts the executable with no version gate; otherwise it returns the parent
of the parent directory of the moc path, after the non-fatal
root-was-inferred warning. -/
theorem detect_version_gate (env : EnvT) (ctx : DetectCtx) (m : String)
    (h1 : lookupVar env "QT5DIR" = none) (h2 : lookupVar env "QTDIR" = none)
    (h3 : ctx.osQT5DIR = none) (h4 : ctx.osQTDIR = none)
    (h5 : findMoc ctx = some m) :
    (∀ a b c, mocverMatch (ctx.mocOutput m) = some (a, b, c) →
      tripleLt (a, b, c) (5, 0, 0) = true →
      detect env ctx = ⟨.error (.oldMoc a b c), false⟩) ∧
    (mocverMatch (ctx.mocOutput m) = none →
      detect env ctx = ⟨.ok (.s (pyDirname (pyDirname m))), true⟩) ∧
    (∀ a b c, mocverMatch (ctx.mocOutput m) = some (a, b, c) →
      tripleLt (a, b, c) (5, 0, 0) = false →
      detect env ctx = ⟨.ok (.s (pyDirname (pyDirname m))), true⟩) := by
  refine ⟨?_, ?_, ?_⟩ <;> intros <;>
    simp_all [detect, mocProbe]

/-- Witness for C3: a Qt 4.8.6 `moc -v` output is fatally rejected, an
unparseable output is accepted without a version gate, and a 5.2.1 output
yields the grandparent directory of the executable plus the warning. -/
theorem detect_version_gate_witness :
    detect [] ⟨none, none, fun c => if c = "moc" then some "/usr/bin/moc" else none,
        fun _ => "Qt Meta Object Compiler version 63 (Qt 4.8.6)\n"⟩ =
      ⟨.error (.oldMoc 4 8 6), false⟩ ∧
    detect [] ⟨none, none, fun c => if c = "moc" then some "/usr/bin/moc" else none,
        fun _ => "no version digits here\n"⟩ =
      ⟨.ok (.s "/usr"), true⟩ ∧
    detect [] ⟨none, none, fun c => if c = "moc" then some "/usr/bin/moc" else none,
        fun _ => "moc 5.2.1\n"⟩ =
      ⟨.ok (.s "/usr"), true⟩ := by
  have e : pyDirname (pyDirname "/usr/bin/moc") = "/usr" := by decide
  refine ⟨?_, ?_, ?_⟩
  · exact (detect_version_gate []
      ⟨none, none, fun c => if c = "moc" then some "/usr/bin/moc" else none,
        fun _ => "Qt Meta Object Compiler version 63 (Qt 4.8.6)\n"⟩
      "/usr/bin/moc" rfl rfl rfl rfl (by decide)).1 4 8 6 (by decide) (by decide)
  · have h := (detect_version_gate []
      ⟨none, none, fun c => if c = "moc" then some "/usr/bin/moc" else none,
        fun _ => "no version digits here\n"⟩
      "/usr/bin/moc" rfl rfl rfl rfl (by decide)).2.1 (by decide)
    rw [e] at h
    exact h
  · have h := (detect_version_gate []
      ⟨none, none, fun c => if c = "moc" then some "/usr/bin/moc" else none,
        fun _ => "moc 5.2.1\n"⟩
      "/usr/bin/moc" rfl rfl rfl rfl (by decide)).2.2 5 2 1 (by decide) (by decide)
    rw [e] at h
    exact h

/-! ## The Configuration Registrar (`generate`) -/

/-- Python tuple `<` (lexicographic, arbitrary lengths). -/
def listLexLt : List Int → List Int → Bool
  | [], [] => false
  | [], _ :: _ => true
  | _ :: _, [] => false
  | a :: as2, b :: bs => if a < b then true else if a = b then listLexLt as2 bs else false

/-- Python tuple `<=`. -/
def listLexLe (x y : List Int) : Bool := listLexLt x y || x = y

def qt5Suffixes : List String := ["-qt5", "-qt5.exe", "5", "5.exe", "", ".exe"]

def qt5CommandSuffixes : List String := ["-qt5", "5", ""]

/-- `locateQt5Command(env, command, qtdir)`: try the six filename variants
under `<qtdir>/bin` with an executability test, then fall back to
`env.Detect` on the three bare-name variants, else fail with the list of
tried paths. -/
def locateQt5Command (xok : String → Bool) (cmdDetect : List String → Option String)
    (command qtdir : String) : Except (List String) String :=
  let paths := qt5Suffixes.map (fun suf => pyJoin (pyJoin qtdir "bin") (command ++ suf))
  match paths.find? xok with
  | some p => .ok p
  | none =>
    match cmdDetect (qt5CommandSuffixes.map (fun s => command ++ s)) with
    | some p => .ok p
    | none => .error paths

/-- External inputs of `generate`: the locator context, `os.access(-, X_OK)`,
`env.Detect`, and the host SCons version tuple. -/
structure GenCtx where
  det : DetectCtx
  xok : String → Bool
  cmdDetect : List String → Option String
  sconsVer : List Int

/-- The registration surface of a build environment that `generate`
touches: the construction-variable table, the added pseudo-builder methods,
the `BUILDERS` entries, whether the `.qrc` action/emitter pair was attached
to the C++-file builder, and the three emitter lists. -/
structure GenEnv where
  vars : EnvT
  methods : List String
  builders : List String
  qrcOnCxx : Bool
  progEmitters : List String
  shlibEmitters : List String
  libEmitters : List String
deriving Repr

/-- `env.AppendUnique` on one list-valued variable. -/
def appendUnique (l : List String) (xs : List String) : List String :=
  xs.foldl (fun acc x => if x ∈ acc then acc else acc ++ [x]) l

inductive GenErr where
  | detectFailed (e : DetectErr)
  | cmdNotFound (command : String) (tried : List String)
  | typeErr
deriving Repr

/-- The static part of the `env.Replace` table in `generate`
(lines 752-808), in source order; values that depend on the located
installation (`QT5DIR`, `QT5_BINPATH` is static text, the five tool paths,
`QT5_MOCDEFINES`) are supplied separately inside `generate`. -/
def qt5StaticDefaults : List (String × Val) := [
  ("QT5_AUTOSCAN", .i 1),
  ("QT5_AUTOSCAN_STRATEGY", .i 0),
  ("QT5_GOBBLECOMMENTS", .i 0),
  ("QT5_CPPDEFINES_PASSTOMOC", .i 1),
  ("QT5_CLEAN_TS", .i 0),
  ("QT5_AUTOMOC_SCANCPPPATH", .i 1),
  ("QT5_AUTOMOC_CPPPATH", .ls []),
  ("QT5_UICFLAGS", .ls []),
  ("QT5_MOCFROMHFLAGS", .ls []),
  ("QT5_MOCFROMCXXFLAGS", .ls ["-i"]),
  ("QT5_QRCFLAGS", .s ""),
  ("QT5_LUPDATEFLAGS", .s ""),
  ("QT5_LRELEASEFLAGS", .s ""),
  ("QT5_UISUFFIX", .s ".ui"),
  ("QT5_UICDECLPREFIX", .s "ui_"),
  ("QT5_UICDECLSUFFIX", .s ".h"),
  ("QT5_MOCINCPREFIX", .s "-I"),
  ("QT5_MOCHPREFIX", .s "moc_"),
  ("QT5_MOCHSUFFIX", .s "$CXXFILESUFFIX"),
  ("QT5_MOCCXXPREFIX", .s ""),
  ("QT5_MOCCXXSUFFIX", .s ".moc"),
  ("QT5_QRCSUFFIX", .s ".qrc"),
  ("QT5_QRCCXXSUFFIX", .s "$CXXFILESUFFIX"),
  ("QT5_QRCCXXPREFIX", .s "qrc_"),
  ("QT5_MOCDEFPREFIX", .s "-D"),
  ("QT5_MOCDEFSUFFIX", .s ""),
  ("QT5_MOCCPPPATH", .ls []),
  ("QT5_MOCINCFLAGS",
    .s "$( $\x7b_concat(QT5_MOCINCPREFIX, QT5_MOCCPPPATH, INCSUFFIX, __env__, RDirs)\x7d $)"),
  ("QT5_UICCOM", .s "$QT5_UIC $QT5_UICFLAGS -o $TARGET $SOURCE"),
  ("QT5_LUPDATECOM", .s "$QT5_LUPDATE $QT5_LUPDATEFLAGS $SOURCES -ts $TARGET"),
  ("QT5_LRELEASECOM", .s "$QT5_LRELEASE $QT5_LRELEASEFLAGS -qm $TARGET $SOURCES"),
  ("QT5_XMOCHPREFIX", .s "moc_"),
  ("QT5_XMOCHSUFFIX", .s ".cpp"),
  ("QT5_XMOCCXXPREFIX", .s ""),
  ("QT5_XMOCCXXSUFFIX", .s ".moc")]

/-- `locateQt5Command` wrapped into the `generate` error type. -/
def locateOr (ctx : GenCtx) (c qtdir : String) : Except GenErr String :=
  match locateQt5Command ctx.xok ctx.cmdDetect c qtdir with
  | .ok p => .ok p
  | .error t => .error (.cmdNotFound c t)

/-- `generate(env)`: set `QT5DIR` from the locator, `env.Replace` the whole
defaults table (note: `Replace`, so pre-existing entries are overwritten),
then register the pseudo-builders, the three builders, the `.qrc` hook on
the C++-file builder, and the Automoc emitters. -/
def generate (ctx : GenCtx) (env : GenEnv) : Except GenErr GenEnv :=
  match (detect env.vars ctx.det).res with
  | .error e => .error (.detectFailed e)
  | .ok v =>
    let vars1 := setVar env.vars "QT5DIR" v
    match (detect vars1 ctx.det).res with
    | .error e => .error (.detectFailed e)
    | .ok v2 =>
      match v with
      | .s qtdir =>
        match locateOr ctx "moc" qtdir with
        | .error e => .error e
        | .ok mocP =>
          match locateOr ctx "uic" qtdir with
          | .error e => .error e
          | .ok uicP =>
            match locateOr ctx "rcc" qtdir with
            | .error e => .error e
            | .ok rccP =>
              match locateOr ctx "lupdate" qtdir with
              | .error e => .error e
              | .ok lupP =>
                match locateOr ctx "lrelease" qtdir with
                | .error e => .error e
                | .ok lrelP =>
                  let mocdefines :=
                    "$\x7b_defines(QT5_MOCDEFPREFIX, CPPDEFINES, QT5_MOCDEFSUFFIX, __env__"
                      ++ (if listLexLe [4, 2, 0] ctx.sconsVer then ", TARGET, SOURCE" else "")
                      ++ ")\x7d"
                  let repl : List (String × Val) :=
                    [("QT5DIR", v2), ("QT5_BINPATH", .s "$QT5DIR/bin"),
                     ("QT5_MOC", .s mocP), ("QT5_UIC", .s uicP), ("QT5_RCC", .s rccP),
                     ("QT5_LUPDATE", .s lupP), ("QT5_LRELEASE", .s lrelP)]
                    ++ qt5StaticDefaults ++ [("QT5_MOCDEFINES", .s mocdefines)]
                  let vars2 := repl.foldl (fun e kv => setVar e kv.1 kv.2) vars1
                  .ok { env with
                    vars := vars2,
                    methods := env.methods ++
                      ["Ts5", "Qm5", "Qrc5", "ExplicitMoc5", "ExplicitUic5",
                       "EnableQt5Modules"],
                    builders := env.builders ++ ["Uic5", "Moc5", "XMoc5"],
                    qrcOnCxx := true,
                    progEmitters := appendUnique env.progEmitters ["AutomocStatic"],
                    shlibEmitters := appendUnique env.shlibEmitters ["AutomocShared"],
                    libEmitters := appendUnique env.libEmitters ["AutomocStatic"] }
      | _ => .error .typeErr

theorem lookupVar_setVar (e : EnvT) (k k2 : String) (v : Val) :
    lookupVar (setVar e k v) k2 = if k = k2 then some v else lookupVar e k2 := by
  induction e with
  | nil => simp [setVar, lookupVar]
  | cons kv rest ih =>
    rcases kv with ⟨a, b⟩
    by_cases h1 : a = k
    · subst h1
      by_cases h2 : a = k2 <;> simp [setVar, lookupVar, h2]
    · by_cases h2 : a = k2
      · have h3 : ¬(k2 = k) := fun hk => h1 (h2.trans hk)
        have h4 : ¬(k = k2) := fun hk => h3 hk.symm
        simp [setVar, lookupVar, h1, h2, h3, h4]
      · simp [setVar, lookupVar, h1, h2, ih]

theorem lookupVar_append (a b : EnvT) (k : String) :
    lookupVar (a ++ b) k =
      match lookupVar a k with
      | some v => some v
      | none => lookupVar b k := by
  induction a with
  | nil => simp [lookupVar]
  | cons kv rest ih =>
    by_cases h : kv.1 = k <;> simp [lookupVar, h, ih]

theorem lookupVar_foldl_setVar (l : List (String × Val)) (base : EnvT) (k : String) :
    lookupVar (l.foldl (fun e kv => setVar e kv.1 kv.2) base) k =
      match lookupVar l.reverse k with
      | some v => some v
      | none => lookupVar base k := by
  induction l generalizing base with
  | nil => simp [lookupVar]
  | cons kv rest ih =>
    simp only [List.foldl_cons, List.reverse_cons]
    rw [ih, lookupVar_append]
    by_cases h : kv.1 = k
    · cases hr : lookupVar rest.reverse k <;>
        simp [lookupVar, lookupVar_setVar, h, hr]
    · cases hr : lookupVar rest.reverse k <;>
        simp [lookupVar, lookupVar_setVar, h, hr]

/-! ## C1: `generate` and pre-existing configuration entries -/

def c1Ctx : GenCtx :=
  { det := ⟨none, none, fun _ => none, fun _ => ""⟩,
    xok := fun _ => true, cmdDetect := fun _ => none, sconsVer := [4, 5, 0] }

def c1Env : GenEnv :=
  { vars := [("QT5DIR", Val.s "/qt"), ("QT5_AUTOSCAN", Val.s "0"),
             ("QT5_MOCHPREFIX", Val.s "my_"), ("QT5_QRCFLAGS", Val.s "-custom")],
    methods := [], builders := [], qrcOnCxx := false,
    progEmitters := [], shlibEmitters := [], libEmitters := [] }

/-- C1 counterexample. A caller that sets `QT5_AUTOSCAN`, `QT5_MOCHPREFIX`
and `QT5_QRCFLAGS` before invoking `generate` does NOT find those values
afterwards: `env.Replace` overwrites each with its default, so registration
does not merely fill in missing entries. -/
theorem generate_overwrites_counterexample :
    lookupVar c1Env.vars "QT5_AUTOSCAN" = some (Val.s "0") ∧
    lookupVar c1Env.vars "QT5_MOCHPREFIX" = some (Val.s "my_") ∧
    lookupVar c1Env.vars "QT5_QRCFLAGS" = some (Val.s "-custom") ∧
    (generate c1Ctx c1Env).map (fun e => lookupVar e.vars "QT5_AUTOSCAN")
      = .ok (some (Val.i 1)) ∧
    (generate c1Ctx c1Env).map (fun e => lookupVar e.vars "QT5_MOCHPREFIX")
      = .ok (some (Val.s "moc_")) ∧
    (generate c1Ctx c1Env).map (fun e => lookupVar e.vars "QT5_QRCFLAGS")
      = .ok (some (Val.s "")) := by
  exact ⟨rfl, rfl, rfl, rfl, rfl, rfl⟩

set_option maxHeartbeats 1000000 in
/-- C1 amended. `generate` preserves a pre-set `QT5DIR` (the locator
returns it), but every other defaults-table variable is overwritten with
its default by `env.Replace`, whatever value the caller installed before
the call; stated here for the variables the claim names, for every
environment in which the five companion tools are found under
`<QT5DIR>/bin`. -/
theorem generate_replace_semantics (ctx : GenCtx) (env : GenEnv) (d : String)
    (h : lookupVar env.vars "QT5DIR" = some (Val.s d))
    (hm : ctx.xok (pyJoin (pyJoin d "bin") "moc-qt5") = true)
    (hu : ctx.xok (pyJoin (pyJoin d "bin") "uic-qt5") = true)
    (hr : ctx.xok (pyJoin (pyJoin d "bin") "rcc-qt5") = true)
    (hl : ctx.xok (pyJoin (pyJoin d "bin") "lupdate-qt5") = true)
    (hle : ctx.xok (pyJoin (pyJoin d "bin") "lrelease-qt5") = true) :
    (generate ctx env).map (fun e => lookupVar e.vars "QT5DIR")
      = .ok (some (Val.s d)) ∧
    (generate ctx env).map (fun e => lookupVar e.vars "QT5_AUTOSCAN")
      = .ok (some (Val.i 1)) ∧
    (generate ctx env).map (fun e => lookupVar e.vars "QT5_AUTOSCAN_STRATEGY")
      = .ok (some (Val.i 0)) ∧
    (generate ctx env).map (fun e => lookupVar e.vars "QT5_MOCHPREFIX")
      = .ok (some (Val.s "moc_")) ∧
    (generate ctx env).map (fun e => lookupVar e.vars "QT5_QRCFLAGS")
      = .ok (some (Val.s "")) ∧
    (generate ctx env).map (fun e => lookupVar e.vars "QT5_MOCFROMCXXFLAGS")
      = .ok (some (Val.ls ["-i"])) ∧
    (generate ctx env).map (fun e => lookupVar e.vars "QT5_XMOCHSUFFIX")
      = .ok (some (Val.s ".cpp")) := by
  have hdet : (detect env.vars ctx.det).res = .ok (Val.s d) := by
    simp [detect, h]
  have hdet2 : (detect (setVar env.vars "QT5DIR" (Val.s d)) ctx.det).res
      = .ok (Val.s d) := by
    have hl2 : lookupVar (setVar env.vars "QT5DIR" (Val.s d)) "QT5DIR"
        = some (Val.s d) := by
      rw [lookupVar_setVar]
      simp
    simp [detect, hl2]
  have hm1 : locateOr ctx "moc" d = .ok (pyJoin (pyJoin d "bin") "moc-qt5") := by
    simp [locateOr, locateQt5Command, qt5Suffixes, List.find?, hm]
  have hu1 : locateOr ctx "uic" d = .ok (pyJoin (pyJoin d "bin") "uic-qt5") := by
    simp [locateOr, locateQt5Command, qt5Suffixes, List.find?, hu]
  have hr1 : locateOr ctx "rcc" d = .ok (pyJoin (pyJoin d "bin") "rcc-qt5") := by
    simp [locateOr, locateQt5Command, qt5Suffixes, List.find?, hr]
  have hl1 : locateOr ctx "lupdate" d = .ok (pyJoin (pyJoin d "bin") "lupdate-qt5") := by
    simp [locateOr, locateQt5Command, qt5Suffixes, List.find?, hl]
  have hle1 : locateOr ctx "lrelease" d
      = .ok (pyJoin (pyJoin d "bin") "lrelease-qt5") := by
    simp [locateOr, locateQt5Command, qt5Suffixes, List.find?, hle]
  simp only [generate, hdet, hdet2, hm1, hu1, hr1, hl1, hle1]
  refine ⟨?_, ?_, ?_, ?_, ?_, ?_, ?_⟩
  all_goals rw [Except.map]
  all_goals simp only [lookupVar_foldl_setVar]
  all_goals simp [qt5StaticDefaults, lookupVar]

/-- Witness for C1's amended theorem at a concrete environment. -/
theorem generate_replace_semantics_witness :
    (generate c1Ctx c1Env).map (fun e => lookupVar e.vars "QT5DIR")
      = .ok (some (Val.s "/qt")) ∧
    (generate c1Ctx c1Env).map (fun e => lookupVar e.vars "QT5_XMOCHSUFFIX")
      = .ok (some (Val.s ".cpp")) :=
  ⟨(generate_replace_semantics c1Ctx c1Env "/qt" rfl rfl rfl rfl rfl rfl).1,
   (generate_replace_semantics c1Ctx c1Env "/qt" rfl rfl rfl rfl rfl rfl).2.2.2.2.2.2⟩

/-! ## Regex models used by the Automatic Meta-Object Scanner -/

def qobjChars : List Char := "Q_OBJECT".data

/-- `[A-Za-z0-9]`. -/
def isAlnumAscii (c : Char) : Bool := c.isAlpha || c.isDigit

/-- Occurrence test: position `i` of `l` starts the marker macro text. -/
def occB (l : List Char) (i : Nat) : Bool := qobjChars.isPrefixOf (l.drop i)

/-- One-position test for `[^A-Za-z0-9]Q_OBJECT[^A-Za-z0-9]` anchored at the
head of `l` (the head is the leading boundary character). -/
def qoAt (l : List Char) : Bool :=
  match l with
  | c :: rest =>
    !isAlnumAscii c && qobjChars.isPrefixOf rest &&
      (match rest.drop 8 with
       | d :: _ => !isAlnumAscii d
       | [] => false)
  | [] => false

/-- `self.qo_search.search(text)`. -/
def qoSearch : List Char → Bool
  | [] => false
  | l@(_ :: rest) => qoAt l || qoSearch rest

/-- Index of the first occurrence of the marker macro. -/
def findQO : List Char → Option Nat
  | [] => none
  | l@(_ :: rest) =>
    if qobjChars.isPrefixOf l then some 0
    else (findQO rest).map (· + 1)

/-- Index of the last `"`. -/
def lastQuote : List Char → Option Nat
  | [] => none
  | c :: rest =>
    match lastQuote rest with
    | some i => some (i + 1)
    | none => if c = '"' then some 0 else none

/-- If the `literal_qobject` pattern `"[^\n]*Q_OBJECT[^\n]*"` matches at the
head of `l` (leftmost-greedy, as `re.sub` scans), the total number of
characters the match consumes: the regex engine puts the first `[^\n]*` at
the first marker occurrence of the line that still allows a closing quote,
and the second `[^\n]*` at the last quote of the line after it. -/
def litMatchLen (l : List Char) : Option Nat :=
  match l with
  | [] => none
  | c :: rest =>
    if c = '"' then
      let seg := rest.takeWhile (fun c => c ≠ '\n')
      (match findQO seg with
       | none => none
       | some o =>
         match lastQuote (seg.drop (o + 8)) with
         | none => none
         | some q => some (o + 8 + q + 2))
    else none

/-- `literal_qobject.sub('""', text)` with explicit fuel; every step consumes
at least one character, so `l.length` fuel suffices. -/
def litSubF : Nat → List Char → List Char
  | 0, l => l
  | _ + 1, [] => []
  | fuel + 1, c :: rest =>
    match litMatchLen (c :: rest) with
    | some n => '"' :: '"' :: litSubF fuel ((c :: rest).drop n)
    | none => c :: litSubF fuel rest

def litSub (l : List Char) : List Char := litSubF l.length l

/-- Start index of the first `*/`. -/
def findClose : List Char → Option Nat
  | [] => none
  | '*' :: '/' :: _ => some 0
  | _ :: rest => (findClose rest).map (· + 1)

/-- `ccomment.sub('', text)`: remove each `/* ... */` (non-greedy, DOTALL);
an unterminated `/*` is left in place. -/
def ccommentSubF : Nat → List Char → List Char
  | 0, l => l
  | _ + 1, [] => []
  | fuel + 1, '/' :: '*' :: rest =>
    (match findClose rest with
     | some k => ccommentSubF fuel (rest.drop (k + 2))
     | none => '/' :: ccommentSubF fuel ('*' :: rest))
  | fuel + 1, c :: rest => c :: ccommentSubF fuel rest

def ccommentSub (l : List Char) : List Char := ccommentSubF l.length l

/-- `cxxcomment.sub('', text)`: remove `//` up to (excluding) end of line. -/
def cxxcommentSubF : Nat → List Char → List Char
  | 0, l => l
  | _ + 1, [] => []
  | fuel + 1, '/' :: '/' :: rest =>
    cxxcommentSubF fuel (rest.dropWhile (fun c => c ≠ '\n'))
  | fuel + 1, c :: rest => c :: cxxcommentSubF fuel rest

def cxxcommentSub (l : List Char) : List Char := cxxcommentSubF l.length l

/-- Match `\s*#\s*include\s+"name"` at the head of `l` (the filename is
`re.escape`d in the source, hence literal here). -/
def incAt (name : List Char) (l : List Char) : Bool :=
  match l.dropWhile pyIsSpace with
  | '#' :: r1 =>
    let r2 := r1.dropWhile pyIsSpace
    if ("include".data).isPrefixOf r2 then
      (match r2.drop 7 with
       | c :: _ =>
         if pyIsSpace c then
           ('"' :: (name ++ ['"'])).isPrefixOf ((r2.drop 7).dropWhile pyIsSpace)
         else false
       | [] => false)
    else false
  | _ => false

def searchIncMAux (name : List Char) : List Char → Bool
  | [] => false
  | '\n' :: rest => incAt name rest || searchIncMAux name rest
  | _ :: rest => searchIncMAux name rest

/-- `re.search(r'^\s*#\s*include\s+"name"', text, re.M)`: the anchored
pattern tried at every line start. -/
def searchIncM (name : List Char) (l : List Char) : Bool :=
  incAt name l || searchIncMAux name l

/-- Character match for strategy 1's include pattern, where the predicted
filename is spliced into the regex WITHOUT `re.escape`: a `.` in it (the
only regex metacharacter occurring in the default affixes) matches any
character except a newline. -/
def patCharMatch (p c : Char) : Bool :=
  if p = '.' then c ≠ '\n' else p = c

def patPrefixOf : List Char → List Char → Bool
  | [], _ => true
  | _ :: _, [] => false
  | p :: ps, c :: cs => patCharMatch p c && patPrefixOf ps cs

/-- Match `#include\s+"name"` at the head of `l` (strategy 1 pattern). -/
def incRawAt (name : List Char) (l : List Char) : Bool :=
  if ("#include".data).isPrefixOf l then
    (match l.drop 8 with
     | c :: _ =>
       if pyIsSpace c then
         (match (l.drop 8).dropWhile pyIsSpace with
          | '"' :: r3 => patPrefixOf (name ++ ['"']) r3
          | _ => false)
       else false
     | [] => false)
  else false

/-- Un-anchored `re.search` for strategy 1's include pattern. -/
def searchIncRaw (name : List Char) : List Char → Bool
  | [] => false
  | l@(_ :: rest) => incRawAt name l || searchIncRaw name rest

/-! ## The Automatic Meta-Object Scanner (`_Automoc`) -/

/-- `header_extensions` (modelled for a case-sensitive filesystem, where
`.H` is appended). -/
def headerExts : List String := [".h", ".hxx", ".hpp", ".hh", ".H"]

def cxxSuffixes : List String := [".c", ".cxx", ".cpp", ".cc"]

/-- The slice of the build environment the scanner reads (all `env.subst`
results are already-substituted strings), plus the file-content map
standing for the build-graph nodes' cached contents (`get_contents`
failing = the file does not yet exist). -/
structure ScanEnv where
  autoscan : String
  strategyVar : String
  gobbleVar : String
  debugVar : String
  scanCppPathVar : String
  automocCppPath : List String
  cppPath : List String
  mochPre : String
  mochSuf : String
  moccxxPre : String
  moccxxSuf : String
  xmochPre : String
  xmochSuf : String
  xmoccxxPre : String
  xmoccxxSuf : String
  objSuf : String
  fs : String → Option String

/-- `moc_options`, as built by `create_automoc_options`. -/
structure MocOptions where
  auto_scan : Bool
  auto_scan_strategy : Int
  gobble_comments : Int
  debug : Int
  auto_cpppath : Bool
  cpppaths : List String

def create_automoc_options (env : ScanEnv) : MocOptions :=
  let auto_scan := match pyInt? env.autoscan with
    | some n => !(n = 0)
    | none => true
  let auto_cpppath := match pyInt? env.scanCppPathVar with
    | some n => !(n = 0)
    | none => true
  { auto_scan := auto_scan,
    auto_scan_strategy := (pyInt? env.strategyVar).getD 0,
    gobble_comments := (pyInt? env.gobbleVar).getD 0,
    debug := (pyInt? env.debugVar).getD 0,
    auto_cpppath := auto_cpppath,
    cpppaths := if auto_cpppath then
        (if env.automocCppPath ≠ [] then env.automocCppPath else env.cppPath)
      else [] }

/-- An object-file build-graph node (target path, whether it has a builder,
and its source paths). -/
structure ObjNode where
  path : String
  hasBuilder : Bool
  srcs : List String
deriving DecidableEq, Repr

/-- An element of the emitter's `source` list: either a bare string (old
SCons representation) or a node. -/
inductive SrcEntry where
  | pystr (s : String)
  | node (n : ObjNode)
deriving DecidableEq, Repr

def entryStr : SrcEntry → String
  | .pystr s => s
  | .node n => n.path

inductive MBuilder where
  | moc5
  | xmoc5
deriving DecidableEq, Repr

/-- A synthesized meta-object generation step (builder, source path, target
path). -/
structure MocStep where
  bld : MBuilder
  src : String
  tgt : String
deriving DecidableEq, Repr

/-- Text normalization before pattern matching (lines 403-408 for sources,
223-226 / 306-309 for headers). -/
def normalizeContents (opts : MocOptions) (txt : String) : List Char :=
  let t0 := txt.data
  let t1 := if opts.gobble_comments ≠ 0 then cxxcommentSub (ccommentSub t0) else t0
  litSub t1

/-- `find_file(filename, paths, env.File)`. -/
def find_file (env : ScanEnv) (filename : String) : List String → Option String
  | [] => none
  | d :: rest =>
    let p := pyJoin d filename
    if (env.fs p).isSome then some p else find_file env filename rest

/-- The header-search loop shared by both strategies: for each header
extension in order, look for `<stem><ext>` in the source's directory then
the configured search roots; on the first hit read and normalize its text. -/
def findHeader (env : ScanEnv) (opts : MocOptions) (cpp : String) :
    List String → Option (String × List Char)
  | [] => none
  | hExt :: rest =>
    let hname := (splitExtSCons (baseOf cpp)).1 ++ hExt
    match find_file env hname (pyDirname cpp :: opts.cpppaths) with
    | some h => some (h, normalizeContents opts ((env.fs h).getD ""))
    | none => findHeader env opts cpp rest

/-- Target path of `env.Moc5(src)`: prefix/suffix chosen by the source's
extension, target placed in the source's directory. -/
def moc5Target (env : ScanEnv) (src : String) : String :=
  let stem := (splitExtSCons (baseOf src)).1
  if (splitExtSCons src).2 ∈ headerExts then
    pyJoin (pyDirname src) (env.mochPre ++ stem ++ env.mochSuf)
  else pyJoin (pyDirname src) (env.moccxxPre ++ stem ++ env.moccxxSuf)

/-- Target path of `env.XMoc5(src)`. -/
def xmoc5Target (env : ScanEnv) (src : String) : String :=
  let stem := (splitExtSCons (baseOf src)).1
  if (splitExtSCons src).2 ∈ headerExts then
    pyJoin (pyDirname src) (env.xmochPre ++ stem ++ env.xmochSuf)
  else pyJoin (pyDirname src) (env.xmoccxxPre ++ stem ++ env.xmoccxxSuf)

/-- The object node created by `self.objBuilder(moc_cpp)` (modelled with a
single configurable object suffix). -/
def objEntry (env : ScanEnv) (mocTgt : String) : SrcEntry :=
  .node ⟨(splitExtSCons mocTgt).1 ++ env.objSuf, true, [mocTgt]⟩

/-- The scanner's accumulated side effects: the result list under
construction, the created meta-object steps, the added `env.Depends` edges
and the `env.Ignore`d targets. -/
structure ScanState where
  outSources : List SrcEntry
  steps : List MocStep
  depEdges : List (String × String)
  ignored : List String
deriving Repr

/-- `_Automoc.__automoc_strategy_simple`. -/
def automocStrategySimple (env : ScanEnv) (opts : MocOptions)
    (cpp : String) (cppContents : List Char) (st : ScanState) : ScanState :=
  let hOpt := findHeader env opts cpp headerExts
  let st1 : ScanState :=
    match hOpt with
    | some (h, hContents) =>
      if qoSearch hContents then
        let mocTgt := moc5Target env h
        let st' : ScanState :=
          { st with steps := st.steps ++ [{ bld := .moc5, src := h, tgt := mocTgt }] }
        if searchIncM mocTgt.data cppContents then
          { st' with depEdges := st'.depEdges ++ [(cpp, mocTgt)] }
        else { st' with outSources := st'.outSources ++ [objEntry env mocTgt] }
      else st
    | none => st
  if qoSearch cppContents then
    { st1 with steps := st1.steps ++ [{ bld := .moc5, src := cpp, tgt := moc5Target env cpp }],
               ignored := st1.ignored ++ [moc5Target env cpp] }
  else st1

/-- The `out_sources.pop(idx)` scan of strategy 1: drop the first entry
whose first source renders as the predicted generated-header name. -/
def popFirstHMoc : List SrcEntry → String → List SrcEntry
  | [], _ => []
  | e :: rest, hMoc =>
    match e with
    | .node n =>
      (match n.srcs with
       | s0 :: _ => if s0 = hMoc then rest else e :: popFirstHMoc rest hMoc
       | [] => e :: popFirstHMoc rest hMoc)
    | .pystr _ => e :: popFirstHMoc rest hMoc

/-- The first branch of strategy 1 (lines 286-335): a `#include` of the
predicted generated-header name triggers the same header search as strategy
0; a hit with the marker macro creates an (ignored) `XMoc5` step and pops
the stale reference from the result list.  The boolean is the `added`
flag. -/
def automocIncludeH (env : ScanEnv) (opts : MocOptions) (cpp : String)
    (cppContents : List Char) (hMoc : String) (st : ScanState) :
    ScanState × Bool :=
  if searchIncRaw hMoc.data cppContents then
    match findHeader env opts cpp headerExts with
    | some (h, hContents) =>
      if qoSearch hContents then
        let tgt := xmoc5Target env h
        ({ st with
            steps := st.steps ++ [{ bld := .xmoc5, src := h, tgt := tgt }],
            ignored := st.ignored ++ [tgt],
            outSources := popFirstHMoc st.outSources hMoc }, true)
      else (st, false)
    | none => (st, false)
  else (st, false)

/-- The second branch of strategy 1 (lines 337-351): a `#include` of the
predicted generated-source name together with the marker macro in the
source creates an (ignored) `XMoc5` step with that exact target. -/
def automocIncludeCxx (cpp : String) (cppContents : List Char) (cxxMoc : String)
    (r : ScanState × Bool) : ScanState × Bool :=
  if searchIncRaw cxxMoc.data cppContents then
    if qoSearch cppContents then
      ({ r.1 with
          steps := r.1.steps ++ [{ bld := .xmoc5, src := cpp, tgt := cxxMoc }],
          ignored := r.1.ignored ++ [cxxMoc] }, true)
    else r
  else r

/-- `_Automoc.__automoc_strategy_include_driven`. -/
def automocStrategyIncludeDriven (env : ScanEnv) (opts : MocOptions)
    (cpp : String) (cppContents : List Char) (st : ScanState) : ScanState :=
  if (splitExtSCons cpp).2 ∈ cxxSuffixes then
    let stem := (splitExtSCons (baseOf cpp)).1
    let hMoc := env.xmochPre ++ stem ++ env.xmochSuf
    let cxxMoc := env.xmoccxxPre ++ stem ++ env.xmoccxxSuf
    let res2 := automocIncludeCxx cpp cppContents cxxMoc
      (automocIncludeH env opts cpp cppContents hMoc st)
    if res2.2 then res2.1
    else automocStrategySimple env opts cpp cppContents res2.1
  else st

/-- The per-input-object body of `_Automoc.__call__`'s loop, with its skip
rules (bare string, builderless node, non-C++ source, unreadable source). -/
def scanObj (env : ScanEnv) (opts : MocOptions) (st : ScanState)
    (obj : SrcEntry) : ScanState :=
  match obj with
  | .pystr _ => st
  | .node n =>
    if !n.hasBuilder then st
    else
      match n.srcs with
      | [] => st
      | cpp :: _ =>
        if !((splitExtSCons cpp).2 ∈ cxxSuffixes) then st
        else
          match env.fs cpp with
          | none => st
          | some contents =>
            let cppContents := normalizeContents opts contents
            if opts.auto_scan_strategy = 0 then
              automocStrategySimple env opts cpp cppContents st
            else
              automocStrategyIncludeDriven env opts cpp cppContents st

/-- Lexicographic-by-code-point string order (Python string `<=`). -/
def charListLe : List Char → List Char → Bool
  | [], _ => true
  | _ :: _, [] => false
  | a :: as2, b :: bs =>
    if a < b then true
    else if a = b then charListLe as2 bs else false

def strLe (a b : String) : Bool := charListLe a.data b.data

def insertByStr (e : SrcEntry) : List SrcEntry → List SrcEntry
  | [] => [e]
  | x :: xs => if strLe (entryStr e) (entryStr x) then e :: x :: xs
               else x :: insertByStr e xs

def sortByStr : List SrcEntry → List SrcEntry
  | [] => []
  | e :: rest => insertByStr e (sortByStr rest)

/-- `sorted(set(out_sources), key = lambda entry: str(entry))`. -/
def sortedDedup (l : List SrcEntry) : List SrcEntry := sortByStr l.dedup

/-- `_Automoc.__call__`: build the options, walk the input objects (the
whole loop body is skipped when auto-scanning is disabled), and return the
deduplicated result sorted by string representation, together with the
accumulated effects. -/
def automocCall (env : ScanEnv) (source : List SrcEntry) :
    ScanState × List SrcEntry :=
  let opts := create_automoc_options env
  let st0 : ScanState :=
    { outSources := source, steps := [], depEdges := [], ignored := [] }
  let stF := if opts.auto_scan then source.foldl (scanObj env opts) st0 else st0
  (stF, sortedDedup stF.outSources)

/-! ## C6: macro-driven strategy, dependency edge vs. separate compilation -/

/-- C6. In the macro-driven strategy, when a same-stem header containing the
marker macro is found for a source: if the source's text contains a
`#include` of the generated moc output's filename, the emitter records a
dependency from the source on the generated file and appends no separately
compiled object to the result list; otherwise the generated output is
compiled to an object which is appended to the result list. -/
theorem automoc_simple_include_dependency (env : ScanEnv) (n : ObjNode)
    (cpp : String) (srest : List String) (txt hpath : String) (hContents : List Char)
    (hsc : (create_automoc_options env).auto_scan = true)
    (hst : (create_automoc_options env).auto_scan_strategy = 0)
    (hb : n.hasBuilder = true)
    (hsrc : n.srcs = cpp :: srest)
    (hext : (splitExtSCons cpp).2 ∈ cxxSuffixes)
    (hfs : env.fs cpp = some txt)
    (hdr : findHeader env (create_automoc_options env) cpp headerExts
      = some (hpath, hContents))
    (hqo : qoSearch hContents = true) :
    (searchIncM (moc5Target env hpath).data
        (normalizeContents (create_automoc_options env) txt) = true →
      (automocCall env [.node n]).1.depEdges = [(cpp, moc5Target env hpath)] ∧
      (automocCall env [.node n]).2 = sortedDedup [.node n]) ∧
    (searchIncM (moc5Target env hpath).data
        (normalizeContents (create_automoc_options env) txt) = false →
      (automocCall env [.node n]).1.depEdges = [] ∧
      (automocCall env [.node n]).2
        = sortedDedup ([.node n] ++ [objEntry env (moc5Target env hpath)])) := by
  have e0 : automocCall env [.node n]
      = (scanObj env (create_automoc_options env)
          { outSources := [.node n], steps := [], depEdges := [], ignored := [] }
          (.node n),
         sortedDedup (scanObj env (create_automoc_options env)
          { outSources := [.node n], steps := [], depEdges := [], ignored := [] }
          (.node n)).outSources) := by
    simp [automocCall, hsc]
  have e1 : scanObj env (create_automoc_options env)
      { outSources := [.node n], steps := [], depEdges := [], ignored := [] }
      (.node n)
      = automocStrategySimple env (create_automoc_options env) cpp
          (normalizeContents (create_automoc_options env) txt)
          { outSources := [.node n], steps := [], depEdges := [], ignored := [] } := by
    simp [scanObj, hb, hsrc, hext, hfs, hst]
  rw [e0, e1]
  constructor <;> intro hincl <;>
    cases hq2 : qoSearch (normalizeContents (create_automoc_options env) txt) <;>
      simp [automocStrategySimple, hdr, hqo, hincl, hq2]

/-- Witness for C6 at a concrete environment: `widget.cpp` next to a
`widget.h` carrying the marker macro, with and without
`#include "moc_widget.cc"` in the source. -/
def c6Env : ScanEnv :=
  { autoscan := "1", strategyVar := "0", gobbleVar := "0", debugVar := "0",
    scanCppPathVar := "1", automocCppPath := [], cppPath := [],
    mochPre := "moc_", mochSuf := ".cc", moccxxPre := "", moccxxSuf := ".moc",
    xmochPre := "moc_", xmochSuf := ".cpp", xmoccxxPre := "", xmoccxxSuf := ".moc",
    objSuf := ".o",
    fs := (fun p =>
      if p = "widget.cpp" then some "int x;\n"
      else if p = "widget.h" then some "class W : Q { Q_OBJECT };\n"
      else none) }

def c6EnvInc : ScanEnv :=
  { c6Env with
    fs := (fun p =>
      if p = "widget.cpp" then some "#include \"moc_widget.cc\"\nint x;\n"
      else if p = "widget.h" then some "class W : Q { Q_OBJECT };\n"
      else none) }

def c6Node : ObjNode := ⟨"widget.o", true, ["widget.cpp"]⟩

theorem automoc_simple_include_dependency_witness :
    ((automocCall c6EnvInc [.node c6Node]).1.depEdges
        = [("widget.cpp", "moc_widget.cc")] ∧
      (automocCall c6EnvInc [.node c6Node]).2 = sortedDedup [.node c6Node]) ∧
    ((automocCall c6Env [.node c6Node]).1.depEdges = [] ∧
      (automocCall c6Env [.node c6Node]).2
        = sortedDedup ([.node c6Node] ++ [objEntry c6Env "moc_widget.cc"])) := by
  constructor
  · have h := (automoc_simple_include_dependency c6EnvInc c6Node "widget.cpp" []
      "#include \"moc_widget.cc\"\nint x;\n" "widget.h"
      (litSub "class W : Q { Q_OBJECT };\n".data)
      (by decide) (by decide) (by decide) (by decide) (by decide) (by decide)
      (by decide) (by decide)).1 (by decide)
    have e : moc5Target c6EnvInc "widget.h" = "moc_widget.cc" := by decide
    rw [e] at h
    exact h
  · have h := (automoc_simple_include_dependency c6Env c6Node "widget.cpp" []
      "int x;\n" "widget.h"
      (litSub "class W : Q { Q_OBJECT };\n".data)
      (by decide) (by decide) (by decide) (by decide) (by decide) (by decide)
      (by decide) (by decide)).2 (by decide)
    have e : moc5Target c6Env "widget.h" = "moc_widget.cc" := by decide
    rw [e] at h
    exact h

/-! ## Order and permutation lemmas for the result-sorting step -/

theorem charListLe_cons_iff (x y : Char) (xs ys : List Char) :
    charListLe (x :: xs) (y :: ys) = true ↔
      x < y ∨ (x = y ∧ charListLe xs ys = true) := by
  by_cases h : x < y
  · simp [charListLe, h]
  · by_cases h2 : x = y <;> simp [charListLe, h, h2]

theorem charListLe_total (a b : List Char) :
    charListLe a b = true ∨ charListLe b a = true := by
  induction a generalizing b with
  | nil => left; simp [charListLe]
  | cons x xs ih =>
    cases b with
    | nil => right; simp [charListLe]
    | cons y ys =>
      rcases lt_trichotomy x y with h | h | h
      · left; simp [charListLe_cons_iff, h]
      · subst h
        rcases ih ys with h2 | h2
        · left; simp [charListLe_cons_iff, h2]
        · right; simp [charListLe_cons_iff, h2]
      · right; simp [charListLe_cons_iff, h]

theorem charListLe_trans {a b c : List Char} (h1 : charListLe a b = true)
    (h2 : charListLe b c = true) : charListLe a c = true := by
  induction a generalizing b c with
  | nil => simp [charListLe]
  | cons x xs ih =>
    cases b with
    | nil => simp [charListLe] at h1
    | cons y ys =>
      cases c with
      | nil => simp [charListLe] at h2
      | cons z zs =>
        rw [charListLe_cons_iff] at h1 h2 ⊢
        rcases h1 with h1 | ⟨rfl, h1⟩
        · rcases h2 with h2 | ⟨rfl, h2⟩
          · exact Or.inl (lt_trans h1 h2)
          · exact Or.inl h1
        · rcases h2 with h2 | ⟨rfl, h2⟩
          · exact Or.inl h2
          · exact Or.inr ⟨rfl, ih h1 h2⟩

theorem charListLe_antisymm {a b : List Char} (h1 : charListLe a b = true)
    (h2 : charListLe b a = true) : a = b := by
  induction a generalizing b with
  | nil =>
    cases b with
    | nil => rfl
    | cons y ys => simp [charListLe] at h2
  | cons x xs ih =>
    cases b with
    | nil => simp [charListLe] at h1
    | cons y ys =>
      rw [charListLe_cons_iff] at h1 h2
      rcases h1 with h1 | ⟨rfl, h1⟩
      · rcases h2 with h2 | ⟨rfl, h2⟩
        · exact absurd h2 (lt_asymm h1)
        · exact absurd h1 (lt_irrefl _)
      · rcases h2 with h2 | ⟨e2, h2⟩
        · exact absurd h2 (lt_irrefl _)
        · rw [ih h1 h2]

theorem strLe_total (a b : String) : strLe a b = true ∨ strLe b a = true :=
  charListLe_total a.data b.data

theorem strLe_trans {a b c : String} (h1 : strLe a b = true)
    (h2 : strLe b c = true) : strLe a c = true :=
  charListLe_trans h1 h2

theorem strLe_antisymm {a b : String} (h1 : strLe a b = true)
    (h2 : strLe b a = true) : a = b := by
  have h := charListLe_antisymm h1 h2
  cases a
  cases b
  exact congrArg String.mk h

/-- The weak order the sorting step uses. -/
def eLe (a b : SrcEntry) : Prop := strLe (entryStr a) (entryStr b) = true

theorem insertByStr_perm (e : SrcEntry) (l : List SrcEntry) :
    List.Perm (insertByStr e l) (e :: l) := by
  induction l with
  | nil => simp [insertByStr]
  | cons x xs ih =>
    by_cases h : strLe (entryStr e) (entryStr x) = true
    · simp [insertByStr, h]
    · simp only [insertByStr, h]
      exact (ih.cons x).trans (List.Perm.swap e x xs)

theorem sortByStr_perm (l : List SrcEntry) : List.Perm (sortByStr l) l := by
  induction l with
  | nil => simp [sortByStr]
  | cons x xs ih =>
    exact ((insertByStr_perm x (sortByStr xs)).trans (List.Perm.cons x ih))

theorem insertByStr_pairwise (e : SrcEntry) (l : List SrcEntry)
    (h : List.Pairwise eLe l) : List.Pairwise eLe (insertByStr e l) := by
  induction l with
  | nil => simp [insertByStr, List.Pairwise]
  | cons x xs ih =>
    rcases List.pairwise_cons.mp h with ⟨hx, hxs⟩
    by_cases he : strLe (entryStr e) (entryStr x) = true
    · simp only [insertByStr, he, if_pos]
      refine List.pairwise_cons.mpr ⟨?_, h⟩
      intro y hy
      rcases List.mem_cons.mp hy with rfl | hy2
      · exact he
      · exact strLe_trans he (hx y hy2)
    · simp only [insertByStr, he, if_neg, Bool.false_eq_true, not_false_iff]
      refine List.pairwise_cons.mpr ⟨?_, ih hxs⟩
      intro y hy
      have hy2 := (insertByStr_perm e xs).mem_iff.mp hy
      rcases List.mem_cons.mp hy2 with rfl | hy3
      · rcases strLe_total (entryStr x) (entryStr y) with ht | ht
        · exact ht
        · exact absurd ht he
      · exact hx y hy3

theorem sortByStr_pairwise (l : List SrcEntry) :
    List.Pairwise eLe (sortByStr l) := by
  induction l with
  | nil => simp [sortByStr]
  | cons x xs ih => exact insertByStr_pairwise x (sortByStr xs) ih

/-- Two permuted lists whose entries have pairwise-distinct string keys have
the same `sortedDedup` image: the sort is deterministic up to input order. -/
theorem sortedDedup_perm_eq (l l2 : List SrcEntry)
    (hperm : List.Perm l l2)
    (hinj : ∀ a ∈ l, ∀ b ∈ l, entryStr a = entryStr b → a = b) :
    sortedDedup l = sortedDedup l2 := by
  have hd : List.Perm l.dedup l2.dedup := hperm.dedup
  have hp : List.Perm (sortByStr l.dedup) (sortByStr l2.dedup) :=
    ((sortByStr_perm l.dedup).trans hd).trans (sortByStr_perm l2.dedup).symm
  have hne1 : List.Pairwise (fun a b => entryStr a ≠ entryStr b) l.dedup := by
    refine List.Pairwise.imp_of_mem ?_ l.nodup_dedup
    intro a b ha hb hab he
    exact hab (hinj a (List.mem_dedup.mp ha) b (List.mem_dedup.mp hb) he)
  have hne1s : List.Pairwise (fun a b => entryStr a ≠ entryStr b)
      (sortByStr l.dedup) :=
    ((sortByStr_perm l.dedup).pairwise_iff (fun hab he => hab he.symm)).mpr hne1
  have hne2s : List.Pairwise (fun a b => entryStr a ≠ entryStr b)
      (sortByStr l2.dedup) :=
    (hp.pairwise_iff (fun hab he => hab he.symm)).mp hne1s
  have hlt1 : List.Pairwise (fun a b =>
      eLe a b ∧ entryStr a ≠ entryStr b) (sortByStr l.dedup) :=
    (sortByStr_pairwise l.dedup).and hne1s
  have hlt2 : List.Pairwise (fun a b =>
      eLe a b ∧ entryStr a ≠ entryStr b) (sortByStr l2.dedup) :=
    (sortByStr_pairwise l2.dedup).and hne2s
  haveI : IsAntisymm SrcEntry (fun a b => eLe a b ∧ entryStr a ≠ entryStr b) :=
    ⟨fun a b h1 h2 => absurd (strLe_antisymm h1.1 h2.1) h1.2⟩
  exact List.eq_of_perm_of_sorted hp hlt1 hlt2

/-! ## Strategy-0 additions of the scanner -/

/-- The entries strategy 0 appends to the result list for one input object:
the compiled object of the header-derived moc output, exactly when a
same-stem header with the marker macro is found and the source does not
already include the generated filename. -/
def strategy0Adds (env : ScanEnv) (opts : MocOptions) (obj : SrcEntry) :
    List SrcEntry :=
  match obj with
  | .pystr _ => []
  | .node n =>
    if !n.hasBuilder then []
    else
      match n.srcs with
      | [] => []
      | cpp :: _ =>
        if !((splitExtSCons cpp).2 ∈ cxxSuffixes) then []
        else
          match env.fs cpp with
          | none => []
          | some contents =>
            match findHeader env opts cpp headerExts with
            | some (h, hContents) =>
              if qoSearch hContents then
                (if searchIncM (moc5Target env h).data
                    (normalizeContents opts contents) then []
                 else [objEntry env (moc5Target env h)])
              else []
            | none => []

theorem strategySimple_outSources (env : ScanEnv) (opts : MocOptions)
    (cpp : String) (cppContents : List Char) (st : ScanState) :
    (automocStrategySimple env opts cpp cppContents st).outSources
      = st.outSources ++
        (match findHeader env opts cpp headerExts with
         | some (h, hContents) =>
           if qoSearch hContents then
             (if searchIncM (moc5Target env h).data cppContents then []
              else [objEntry env (moc5Target env h)])
           else []
         | none => []) := by
  cases hh : findHeader env opts cpp headerExts with
  | none =>
    cases hq : qoSearch cppContents <;>
      simp [automocStrategySimple, hh, hq]
  | some pr =>
    obtain ⟨h, hc⟩ := pr
    cases hqh : qoSearch hc
    · cases hq : qoSearch cppContents <;>
        simp [automocStrategySimple, hh, hqh, hq]
    · cases hincl : searchIncM (moc5Target env h).data cppContents <;>
        cases hq : qoSearch cppContents <;>
          simp [automocStrategySimple, hh, hqh, hincl, hq]

theorem scanObj_strategy0_outSources (env : ScanEnv) (opts : MocOptions)
    (st : ScanState) (obj : SrcEntry) (hst : opts.auto_scan_strategy = 0) :
    (scanObj env opts st obj).outSources
      = st.outSources ++ strategy0Adds env opts obj := by
  cases obj with
  | pystr s => simp [scanObj, strategy0Adds]
  | node n =>
    by_cases hb : n.hasBuilder
    · cases hsrc : n.srcs with
      | nil => simp [scanObj, strategy0Adds, hb, hsrc]
      | cons cpp rest =>
        by_cases hext : (splitExtSCons cpp).2 ∈ cxxSuffixes
        · cases hfs : env.fs cpp with
          | none => simp [scanObj, strategy0Adds, hb, hsrc, hext, hfs]
          | some contents =>
            simp only [scanObj, strategy0Adds, hb, hsrc, hext, hfs, hst,
              Bool.not_true, Bool.false_eq_true, if_false, if_pos rfl,
              decide_True, ite_true, not_true_eq_false]
            exact strategySimple_outSources env opts cpp
              (normalizeContents opts contents) st
        · simp [scanObj, strategy0Adds, hb, hsrc, hext]
    · simp [scanObj, strategy0Adds, hb]

theorem foldl_scanObj_outSources (env : ScanEnv) (opts : MocOptions)
    (hst : opts.auto_scan_strategy = 0) :
    ∀ (l : List SrcEntry) (st : ScanState),
      ((l.foldl (scanObj env opts) st).outSources)
        = st.outSources ++ l.flatMap (strategy0Adds env opts) := by
  intro l
  induction l with
  | nil => intro st; simp
  | cons x xs ih =>
    intro st
    rw [List.foldl_cons, ih (scanObj env opts st x),
      scanObj_strategy0_outSources env opts st x hst]
    simp [List.flatMap_cons, List.append_assoc]

theorem perm_flatMap (f : SrcEntry → List SrcEntry) {l1 l2 : List SrcEntry}
    (h : List.Perm l1 l2) : List.Perm (l1.flatMap f) (l2.flatMap f) := by
  induction h with
  | nil => exact List.Perm.refl _
  | cons x _ ih =>
    simp only [List.flatMap_cons]
    exact List.Perm.append_left (f x) ih
  | swap x y l =>
    simp only [List.flatMap_cons, ← List.append_assoc]
    exact List.Perm.append_right _ (List.perm_append_comm)
  | trans _ _ ih1 ih2 => exact ih1.trans ih2

/-! ## C4: the scanner's result ordering and union property -/

def c4Env : ScanEnv :=
  { autoscan := "1", strategyVar := "1", gobbleVar := "0", debugVar := "0",
    scanCppPathVar := "1", automocCppPath := [], cppPath := [],
    mochPre := "moc_", mochSuf := ".cc", moccxxPre := "", moccxxSuf := ".moc",
    xmochPre := "moc_", xmochSuf := ".cpp", xmoccxxPre := "", xmoccxxSuf := ".moc",
    objSuf := ".o",
    fs := (fun p =>
      if p = "foo.cpp" then some "#include \"moc_foo.cpp\"\nint x;\n"
      else if p = "foo.h" then some " Q_OBJECT \n"
      else none) }

def c4Stale : SrcEntry := .node ⟨"moc_foo.o", true, ["moc_foo.cpp"]⟩

def c4Foo : SrcEntry := .node ⟨"foo.o", true, ["foo.cpp"]⟩

/-- C4 counterexample. Under the include-driven strategy
(`QT5_AUTOSCAN_STRATEGY = 1`), scanning `foo.cpp` (which includes the
predicted `moc_foo.cpp` next to a `foo.h` carrying the marker macro) POPS
from the result list the original input whose first source is the predicted
generated header; the returned list is therefore NOT the deduplicated
sorted set union of the original inputs with the newly created outputs: an
original input is missing from it. -/
theorem automoc_union_counterexample :
    c4Stale ∈ [c4Stale, c4Foo] ∧
    ¬ c4Stale ∈ (automocCall c4Env [c4Stale, c4Foo]).2 ∧
    (automocCall c4Env [c4Stale, c4Foo]).2 = [c4Foo] := by
  refine ⟨by decide, by decide, by decide⟩

/-- C4 amended. When auto-scanning is disabled the original input list is
returned deduplicated and sorted by string representation; under the
default macro-driven strategy (strategy `0`) the result is exactly the
deduplicated, string-sorted union of the original inputs with the newly
created compilation outputs (`strategy0Adds`), and two scans of inputs
differing only in element order produce identical output sequences (for
entries with pairwise-distinct string representations).  Only the
include-driven strategy (`QT5_AUTOSCAN_STRATEGY ≠ 0`) can in addition
remove an original input (see the counterexample). -/
theorem automoc_result_ordering (env : ScanEnv) (source source2 : List SrcEntry) :
    ((create_automoc_options env).auto_scan = false →
      (automocCall env source).2 = sortedDedup source) ∧
    ((create_automoc_options env).auto_scan = true →
      (create_automoc_options env).auto_scan_strategy = 0 →
      (automocCall env source).2
        = sortedDedup (source ++
            source.flatMap (strategy0Adds env (create_automoc_options env)))) ∧
    ((create_automoc_options env).auto_scan_strategy = 0 →
      List.Perm source source2 →
      (∀ a ∈ source ++
          source.flatMap (strategy0Adds env (create_automoc_options env)),
        ∀ b ∈ source ++
          source.flatMap (strategy0Adds env (create_automoc_options env)),
          entryStr a = entryStr b → a = b) →
      (automocCall env source).2 = (automocCall env source2).2) := by
  refine ⟨?_, ?_, ?_⟩
  · intro hsc
    simp [automocCall, hsc]
  · intro hsc hst
    simp only [automocCall, hsc, if_pos]
    rw [foldl_scanObj_outSources env (create_automoc_options env) hst source]
  · intro hst hperm hinj
    cases hsc : (create_automoc_options env).auto_scan with
    | false =>
      have e1 : (automocCall env source).2 = sortedDedup source := by
        simp [automocCall, hsc]
      have e2 : (automocCall env source2).2 = sortedDedup source2 := by
        simp [automocCall, hsc]
      rw [e1, e2]
      exact sortedDedup_perm_eq source source2 hperm
        (fun a ha b hb he =>
          hinj a (List.mem_append_left _ ha) b (List.mem_append_left _ hb) he)
    | true =>
      have e1 : (automocCall env source).2
          = sortedDedup (source ++
              source.flatMap (strategy0Adds env (create_automoc_options env))) := by
        simp only [automocCall, hsc, if_pos]
        rw [foldl_scanObj_outSources env (create_automoc_options env) hst source]
      have e2 : (automocCall env source2).2
          = sortedDedup (source2 ++
              source2.flatMap (strategy0Adds env (create_automoc_options env))) := by
        simp only [automocCall, hsc, if_pos]
        rw [foldl_scanObj_outSources env (create_automoc_options env) hst source2]
      rw [e1, e2]
      exact sortedDedup_perm_eq _ _
        (hperm.append (perm_flatMap _ hperm)) hinj

/-- Witness for C4's amended theorem: a disabled-scan pass-through, a
strategy-0 scan equal to the sorted union, and order-invariance of two
permuted inputs. -/
theorem automoc_result_ordering_witness :
    (automocCall { c6Env with autoscan := "0" } [.node c6Node]).2
      = sortedDedup [.node c6Node] ∧
    (automocCall c6Env [.node c6Node]).2
      = sortedDedup ([.node c6Node] ++
          [.node c6Node].flatMap
            (strategy0Adds c6Env (create_automoc_options c6Env))) ∧
    (automocCall c6Env [.node c6Node, .pystr "zzz"]).2
      = (automocCall c6Env [.pystr "zzz", .node c6Node]).2 := by
  refine ⟨?_, ?_, ?_⟩
  · exact (automoc_result_ordering { c6Env with autoscan := "0" }
      [.node c6Node] []).1 (by decide)
  · exact (automoc_result_ordering c6Env [.node c6Node] []).2.1
      (by decide) (by decide)
  · exact (automoc_result_ordering c6Env [.node c6Node, .pystr "zzz"]
      [.pystr "zzz", .node c6Node]).2.2 (by decide)
      (List.Perm.swap _ _ _) (by decide)

/-! ## C5: string-literal suppression of the marker macro -/

/-- The occurrence of the marker macro at position `i` lies inside a
double-quoted string literal: a `"` strictly before it and a `"` at or
after its end, with no newline anywhere between the two quotes. -/
def InsideLit (l : List Char) (i : Nat) : Prop :=
  ∃ a b, a < i ∧ i + 8 ≤ b ∧ b < l.length ∧
    l.getD a 'x' = '"' ∧ l.getD b 'x' = '"' ∧
    (∀ k, a ≤ k → k ≤ b → l.getD k 'x' ≠ '\n')

/-- Every occurrence of the marker macro in `l` lies inside a double-quoted
string literal. -/
def OnlyLit (l : List Char) : Prop := ∀ i, occB l i = true → InsideLit l i

def insideLitB (l : List Char) (i : Nat) : Bool :=
  (List.range i).any (fun a =>
    (List.range l.length).any (fun b =>
      decide (i + 8 ≤ b) && decide (l.getD a 'x' = '"') &&
        decide (l.getD b 'x' = '"') &&
        ((List.range (b + 1)).all (fun k =>
          !decide (a ≤ k) || decide (l.getD k 'x' ≠ '\n')))))

/-- Decidable version of `OnlyLit`. -/
def onlyLitB (l : List Char) : Bool :=
  (List.range l.length).all (fun i => !occB l i || insideLitB l i)

theorem qobj_ne_nil : qobjChars ≠ [] := by decide

theorem occB_length {l : List Char} {i : Nat} (h : occB l i = true) :
    i + 8 ≤ l.length := by
  have hp : qobjChars <+: l.drop i := List.isPrefixOf_iff_prefix.mp h
  have hlen := hp.length_le
  have h8 : qobjChars.length = 8 := by decide
  rw [h8, List.length_drop] at hlen
  by_cases hi : i ≤ l.length
  · omega
  · exfalso
    rw [List.drop_eq_nil_of_le (by omega)] at hp
    exact qobj_ne_nil (List.prefix_nil.mp hp)

theorem occB_shift (c : Char) (rest : List Char) (i : Nat) :
    occB (c :: rest) (i + 1) = occB rest i := rfl

theorem getD_drop_add (l : List Char) (m q : Nat) (d : Char) :
    (l.drop m).getD q d = l.getD (m + q) d := by
  induction l generalizing m with
  | nil => simp
  | cons c t ih =>
    cases m with
    | zero => simp
    | succ m2 =>
      simp only [List.drop_succ_cons]
      rw [ih m2]
      have he : m2 + 1 + q = (m2 + q) + 1 := by omega
      rw [he, List.getD_cons_succ]

theorem onlyLitB_onlyLit {l : List Char} (h : onlyLitB l = true) : OnlyLit l := by
  intro i hi
  have hlen := occB_length hi
  have h2 := (List.all_eq_true.mp h) i (List.mem_range.mpr (by omega))
  rw [hi] at h2
  simp only [Bool.not_true, Bool.false_or] at h2
  rcases List.any_eq_true.mp h2 with ⟨a, ha, h3⟩
  rcases List.any_eq_true.mp h3 with ⟨b, hb, h4⟩
  simp only [Bool.and_eq_true, decide_eq_true_eq, List.all_eq_true,
    List.mem_range, Bool.or_eq_true, Bool.not_eq_true', decide_eq_false_iff_not,
    not_le] at h4
  refine ⟨a, b, List.mem_range.mp ha, h4.1.1.1, List.mem_range.mp hb,
    h4.1.1.2, h4.1.2, ?_⟩
  intro k hak hkb
  rcases h4.2 k (by omega) with h5 | h5
  · omega
  · exact h5

theorem findQO_some {s : List Char} {o : Nat} (h : findQO s = some o) :
    occB s o = true ∧ ∀ j, j < o → occB s j = false := by
  induction s generalizing o with
  | nil => simp [findQO] at h
  | cons c t ih =>
    by_cases hp : qobjChars.isPrefixOf (c :: t)
    · simp only [findQO, hp, if_pos] at h
      cases h
      exact ⟨hp, fun j hj => absurd hj (Nat.not_lt_zero j)⟩
    · simp only [findQO, hp, if_neg, Bool.false_eq_true, not_false_iff,
        if_false, Option.map_eq_some'] at h
      rcases h with ⟨o2, ho2, rfl⟩
      rcases ih ho2 with ⟨h1, h2⟩
      refine ⟨h1, ?_⟩
      intro j hj
      cases j with
      | zero =>
        simp only [occB, List.drop_zero]
        cases hq : qobjChars.isPrefixOf (c :: t) with
        | false => rfl
        | true => exact absurd hq hp
      | succ j2 =>
        rw [occB_shift]
        exact h2 j2 (by omega)

theorem findQO_none {s : List Char} (h : findQO s = none) :
    ∀ j, occB s j = false := by
  induction s with
  | nil =>
    intro j
    simp only [occB, List.drop_nil]
    cases hq : qobjChars.isPrefixOf [] with
    | false => rfl
    | true => exact absurd (List.prefix_nil.mp (List.isPrefixOf_iff_prefix.mp hq)) qobj_ne_nil
  | cons c t ih =>
    intro j
    by_cases hp : qobjChars.isPrefixOf (c :: t)
    · simp [findQO, hp] at h
    · simp only [findQO, hp, if_neg, Bool.false_eq_true, not_false_iff,
        if_false, Option.map_eq_none'] at h
      cases j with
      | zero =>
        simp only [occB, List.drop_zero]
        cases hq : qobjChars.isPrefixOf (c :: t) with
        | false => rfl
        | true => exact absurd hq hp
      | succ j2 =>
        rw [occB_shift]
        exact ih h j2

theorem lastQuote_none {s : List Char} (h : lastQuote s = none) :
    ∀ j, s.getD j 'x' ≠ '"' := by
  induction s with
  | nil =>
    intro j
    simp [List.getD]
  | cons c t ih =>
    intro j
    cases hlq : lastQuote t with
    | some i => simp [lastQuote, hlq] at h
    | none =>
      simp only [lastQuote, hlq] at h
      cases j with
      | zero =>
        intro hc
        simp only [List.getD_cons_zero] at hc
        simp [hc] at h
      | succ j2 =>
        simp only [List.getD_cons_succ]
        exact ih hlq j2

theorem lastQuote_some {s : List Char} {q : Nat} (h : lastQuote s = some q) :
    q < s.length ∧ s.getD q 'x' = '"' ∧ ∀ j, q < j → s.getD j 'x' ≠ '"' := by
  induction s generalizing q with
  | nil => simp [lastQuote] at h
  | cons c t ih =>
    cases hlq : lastQuote t with
    | some i =>
      simp only [lastQuote, hlq] at h
      cases h
      rcases ih hlq with ⟨h1, h2, h3⟩
      refine ⟨by simpa using Nat.succ_lt_succ h1, by simpa using h2, ?_⟩
      intro j hj
      cases j with
      | zero => omega
      | succ j2 =>
        simp only [List.getD_cons_succ]
        exact h3 j2 (by omega)
    | none =>
      simp only [lastQuote, hlq] at h
      by_cases hc : c = '"'
      · simp only [hc, if_pos] at h
        cases h
        refine ⟨by simp, by simp [hc], ?_⟩
        intro j hj
        cases j with
        | zero => omega
        | succ j2 =>
          simp only [List.getD_cons_succ]
          exact lastQuote_none hlq j2
      · simp [hc] at h

theorem lastQuote_exists {s : List Char} {j : Nat} (hj : j < s.length)
    (h : s.getD j 'x' = '"') : lastQuote s ≠ none := by
  intro hn
  exact lastQuote_none hn j h

theorem takeWhile_getD {s : List Char} (p : Char → Bool) (k : Nat) (d : Char)
    (h : k < (s.takeWhile p).length) : (s.takeWhile p).getD k d = s.getD k d := by
  have hp := List.takeWhile_prefix (l := s) p
  rw [List.getD_eq_getElem _ _ h, List.getD_eq_getElem _ _ (Nat.lt_of_lt_of_le h hp.length_le)]
  exact hp.getElem h

theorem takeWhile_pred {s : List Char} (p : Char → Bool) (k : Nat) (d : Char)
    (h : k < (s.takeWhile p).length) : p ((s.takeWhile p).getD k d) = true := by
  rw [List.getD_eq_getElem _ _ h]
  exact List.mem_takeWhile_imp (List.getElem_mem h)

theorem takeWhile_covers {s : List Char} {m : Nat}
    (hnl : ∀ k, k ≤ m → s.getD k 'x' ≠ '\n') (hm : m < s.length) :
    m < (s.takeWhile (fun c => c ≠ '\n')).length := by
  induction s generalizing m with
  | nil => simp at hm
  | cons c t ih =>
    have h0 : c ≠ '\n' := by simpa using hnl 0 (Nat.zero_le m)
    have hrw : (c :: t).takeWhile (fun c => c ≠ '\n')
        = c :: t.takeWhile (fun c => c ≠ '\n') := by
      simp [List.takeWhile_cons, h0]
    rw [hrw, List.length_cons]
    cases m with
    | zero => omega
    | succ m2 =>
      have hm2 : m2 < (t.takeWhile (fun c => c ≠ '\n')).length := by
        refine ih (fun k hk => ?_) (by simpa using hm)
        simpa using hnl (k + 1) (by omega)
      omega

theorem getD_quote_lt_length {l : List Char} {p : Nat}
    (h : l.getD p 'x' = '"') : p < l.length := by
  by_contra hp
  rw [List.getD_eq_default _ _ (by omega)] at h
  exact absurd h (by decide)

theorem prefix_take_of_prefix {p X : List Char} {k : Nat} (h : p <+: X)
    (hk : p.length ≤ k) : p <+: X.take k := by
  rcases h with ⟨Y, rfl⟩
  rw [List.take_append_eq_append_take, List.take_of_length_le hk]
  exact ⟨_, rfl⟩

/-- Occurrences and quotes within the newline-free prefix transfer into the
`takeWhile` segment. -/
theorem occB_takeWhile {rest : List Char} {j : Nat} (h : occB rest j = true)
    (hj : j + 8 ≤ (rest.takeWhile (fun c => c ≠ '\n')).length) :
    occB (rest.takeWhile (fun c => c ≠ '\n')) j = true := by
  set seg := rest.takeWhile (fun c => c ≠ '\n') with hseg
  have hpre : seg <+: rest := List.takeWhile_prefix _
  have hst : seg = rest.take seg.length := List.prefix_iff_eq_take.mp hpre
  have hd : seg.drop j = (rest.drop j).take (seg.length - j) := by
    conv_lhs => rw [hst]
    exact List.drop_take _ _ _
  rw [occB, hd, List.isPrefixOf_iff_prefix]
  refine prefix_take_of_prefix ?_ ?_
  · exact List.isPrefixOf_iff_prefix.mp h
  · have : qobjChars.length = 8 := by decide
    omega

theorem litMatchLen_some_decompose {c : Char} {rest : List Char} {n : Nat}
    (h : litMatchLen (c :: rest) = some n) :
    c = '"' ∧ ∃ o q,
      findQO (rest.takeWhile (fun c => c ≠ '\n')) = some o ∧
      lastQuote ((rest.takeWhile (fun c => c ≠ '\n')).drop (o + 8)) = some q ∧
      n = o + 8 + q + 2 := by
  by_cases hc : c = '"'
  · refine ⟨hc, ?_⟩
    simp only [litMatchLen, hc, if_pos] at h
    split at h
    · simp at h
    next o hfq =>
      split at h
      · simp at h
      next q hlq =>
        simp only [Option.some_inj] at h
        exact ⟨o, q, hfq, hlq, h.symm⟩
  · simp [litMatchLen, hc] at h

/-- M1: shape facts of a successful literal match: it opens with a quote,
consumes at least 10 characters but no more than the list, closes with a
quote, and spans no newline. -/
theorem litMatch_facts {c : Char} {rest : List Char} {n : Nat}
    (h : litMatchLen (c :: rest) = some n) :
    c = '"' ∧ 10 ≤ n ∧ n ≤ (c :: rest).length ∧
    (c :: rest).getD (n - 1) 'x' = '"' ∧
    (∀ k, k < n → (c :: rest).getD k 'x' ≠ '\n') := by
  rcases litMatchLen_some_decompose h with ⟨hc, o, q, hfq, hlq, hn⟩
  set seg := rest.takeWhile (fun c => c ≠ '\n') with hseg
  have hocc := (findQO_some hfq).1
  have holen : o + 8 ≤ seg.length := occB_length hocc
  rcases lastQuote_some hlq with ⟨hqlen, hqget, _⟩
  rw [List.length_drop] at hqlen
  have hseglen : seg.length ≤ rest.length := (List.takeWhile_prefix _).length_le
  have hidx : o + 8 + q < seg.length := by omega
  refine ⟨hc, by omega, by rw [List.length_cons]; omega, ?_, ?_⟩
  · have e1 : n - 1 = (o + 8 + q) + 1 := by omega
    rw [e1, List.getD_cons_succ]
    have e2 : rest.getD (o + 8 + q) 'x' = seg.getD (o + 8 + q) 'x' :=
      (takeWhile_getD _ _ _ hidx).symm
    rw [e2, ← getD_drop_add seg (o + 8) q 'x']
    exact hqget
  · intro k hk
    cases k with
    | zero =>
      simp only [List.getD_cons_zero, hc]
      decide
    | succ k2 =>
      have hk2 : k2 < seg.length := by omega
      rw [List.getD_cons_succ, ← takeWhile_getD (fun c => c ≠ '\n') k2 'x' hk2]
      have := takeWhile_pred (fun c => c ≠ '\n') k2 'x' hk2
      simpa using this

/-- M2: greedy maximality: any same-line quote past an occurrence (one that
could close a literal) lies within the match. -/
theorem litMatch_maximal {c : Char} {rest : List Char} {n : Nat}
    (h : litMatchLen (c :: rest) = some n) {p w : Nat}
    (hq : (c :: rest).getD p 'x' = '"')
    (hnl : ∀ k, k ≤ p → (c :: rest).getD k 'x' ≠ '\n')
    (hw : occB (c :: rest) w = true) (hw1 : 1 ≤ w) (hwp : w + 8 ≤ p) :
    p ≤ n - 1 := by
  rcases litMatchLen_some_decompose h with ⟨hc, o, q, hfq, hlq, hn⟩
  set seg := rest.takeWhile (fun c => c ≠ '\n') with hseg
  have hplen : p < (c :: rest).length := getD_quote_lt_length hq
  have hp1 : 9 ≤ p := by omega
  have hrestnl : ∀ k, k ≤ p - 1 → rest.getD k 'x' ≠ '\n' := by
    intro k hk
    have := hnl (k + 1) (by omega)
    rwa [List.getD_cons_succ] at this
  have hpseg : p - 1 < seg.length := by
    refine takeWhile_covers hrestnl ?_
    simp only [List.length_cons] at hplen
    omega
  obtain ⟨w2, rfl⟩ : ∃ w2, w = w2 + 1 := ⟨w - 1, by omega⟩
  rw [occB_shift] at hw
  have hwseg : occB seg w2 = true := occB_takeWhile hw (by rw [← hseg]; omega)
  have ho2 : o ≤ w2 := by
    by_contra hlt
    exact absurd hwseg (by simpa using (findQO_some hfq).2 w2 (by omega))
  have hsegq : seg.getD (p - 1) 'x' = '"' := by
    rw [takeWhile_getD _ _ _ hpseg]
    have e : p = (p - 1) + 1 := by omega
    rw [e, List.getD_cons_succ] at hq
    exact hq
  have hdropq : (seg.drop (o + 8)).getD (p - 1 - (o + 8)) 'x' = '"' := by
    rw [getD_drop_add]
    have e : o + 8 + (p - 1 - (o + 8)) = p - 1 := by omega
    rw [e]
    exact hsegq
  rcases lastQuote_some hlq with ⟨_, _, hmax⟩
  by_contra hgt
  exact hmax (p - 1 - (o + 8)) (by omega) hdropq

/-- M3: completeness: an occurrence after the opening quote with a same-line
closing quote forces the literal pattern to match. -/
theorem litMatch_complete {rest : List Char} {w p : Nat}
    (hw : occB ('"' :: rest) w = true) (hw1 : 1 ≤ w)
    (hq : ('"' :: rest).getD p 'x' = '"') (hwp : w + 8 ≤ p)
    (hnl : ∀ k, k ≤ p → ('"' :: rest).getD k 'x' ≠ '\n') :
    litMatchLen ('"' :: rest) ≠ none := by
  set seg := rest.takeWhile (fun c => c ≠ '\n') with hseg
  have hplen : p < ('"' :: rest).length := getD_quote_lt_length hq
  have hp1 : 9 ≤ p := by omega
  have hrestnl : ∀ k, k ≤ p - 1 → rest.getD k 'x' ≠ '\n' := by
    intro k hk
    have := hnl (k + 1) (by omega)
    rwa [List.getD_cons_succ] at this
  have hpseg : p - 1 < seg.length := by
    refine takeWhile_covers hrestnl ?_
    simp only [List.length_cons] at hplen
    omega
  obtain ⟨w2, rfl⟩ : ∃ w2, w = w2 + 1 := ⟨w - 1, by omega⟩
  rw [occB_shift] at hw
  have hwseg : occB seg w2 = true := occB_takeWhile hw (by rw [← hseg]; omega)
  have hfq : findQO seg ≠ none := by
    intro hnone
    exact absurd hwseg (by simp [findQO_none hnone])
  cases hfqs : findQO seg with
  | none => exact absurd hfqs hfq
  | some o =>
    have ho2 : o ≤ w2 := by
      by_contra hlt
      exact absurd hwseg (by simpa using (findQO_some hfqs).2 w2 (by omega))
    have hsegq : seg.getD (p - 1) 'x' = '"' := by
      rw [takeWhile_getD _ _ _ hpseg]
      have e : p = (p - 1) + 1 := by omega
      rw [e, List.getD_cons_succ] at hq
      exact hq
    have hdropq : (seg.drop (o + 8)).getD (p - 1 - (o + 8)) 'x' = '"' := by
      rw [getD_drop_add]
      have e : o + 8 + (p - 1 - (o + 8)) = p - 1 := by omega
      rw [e]
      exact hsegq
    have hlq : lastQuote (seg.drop (o + 8)) ≠ none := by
      refine lastQuote_exists ?_ hdropq
      rw [List.length_drop]
      omega
    cases hlqs : lastQuote (seg.drop (o + 8)) with
    | none => exact absurd hlqs hlq
    | some q =>
      intro hcontra
      simp only [litMatchLen, eq_self_iff_true, if_true, ← hseg, hfqs, hlqs]
        at hcontra
      exact Option.noConfusion hcontra

theorem occB_nil (j : Nat) : occB [] j = false := by
  rw [occB, List.drop_nil]
  rfl

/-- A quote-free pattern that prefixes the substituted text already
prefixes the original text: the substitution only deletes stretches and
inserts quote characters. -/
theorem prefix_litSubF {p : List Char} (hp : '"' ∉ p) :
    ∀ (fuel : Nat) (s : List Char), p <+: litSubF fuel s → p <+: s := by
  induction p with
  | nil => exact fun _ _ _ => List.nil_prefix
  | cons q p2 ih =>
    intro fuel s hpre
    cases fuel with
    | zero => exact hpre
    | succ f =>
      cases s with
      | nil => simpa [litSubF] using hpre
      | cons c rest =>
        cases hm : litMatchLen (c :: rest) with
        | some n =>
          exfalso
          simp only [litSubF, hm] at hpre
          have := (List.cons_prefix_cons.mp hpre).1
          exact hp (this ▸ List.mem_cons_self q p2)
        | none =>
          simp only [litSubF, hm] at hpre
          rcases List.cons_prefix_cons.mp hpre with ⟨rfl, h2⟩
          exact List.cons_prefix_cons.mpr
            ⟨rfl, ih (fun hin => hp (List.mem_cons_of_mem _ hin)) f rest h2⟩

/-- A failed match at an opening character preserves the only-in-literals
property for the tail. -/
theorem onlyLit_tail {c : Char} {rest : List Char}
    (hm : litMatchLen (c :: rest) = none) (h : OnlyLit (c :: rest)) :
    OnlyLit rest := by
  intro i hi
  have h2 : occB (c :: rest) (i + 1) = true := by
    rw [occB_shift]
    exact hi
  rcases h (i + 1) h2 with ⟨a, b, ha, hb8, hblen, hqa, hqb, hnl⟩
  cases a with
  | succ a2 =>
    refine ⟨a2, b - 1, by omega, by omega, ?_, ?_, ?_, ?_⟩
    · rw [List.length_cons] at hblen
      omega
    · rw [← List.getD_cons_succ (x := c)]
      exact hqa
    · have e : b = (b - 1) + 1 := by omega
      rw [e, List.getD_cons_succ] at hqb
      exact hqb
    · intro k h1 h2
      have := hnl (k + 1) (by omega) (by omega)
      rwa [List.getD_cons_succ] at this
  | zero =>
    exfalso
    have hc : c = '"' := by simpa using hqa
    subst hc
    exact litMatch_complete h2 (by omega) hqb (by omega)
      (fun k hk => hnl k (by omega) hk) hm

/-- A successful match preserves the only-in-literals property for the
remainder after the match. -/
theorem onlyLit_drop {c : Char} {rest : List Char} {n : Nat}
    (hm : litMatchLen (c :: rest) = some n) (h : OnlyLit (c :: rest)) :
    OnlyLit ((c :: rest).drop n) := by
  intro i hi
  have hocc : occB (c :: rest) (n + i) = true := by
    rw [occB] at hi ⊢
    rw [List.drop_drop] at hi
    first
    | exact hi
    | rwa [Nat.add_comm] at hi
  rcases h (n + i) hocc with ⟨a, b, ha, hb8, hblen, hqa, hqb, hnl⟩
  rcases litMatch_facts hm with ⟨hc, hn10, hnlen, hqn, hnlm⟩
  by_cases han : n ≤ a
  · refine ⟨a - n, b - n, by omega, by omega, ?_, ?_, ?_, ?_⟩
    · rw [List.length_drop]
      omega
    · rw [getD_drop_add]
      have e : n + (a - n) = a := by omega
      rw [e]
      exact hqa
    · rw [getD_drop_add]
      have e : n + (b - n) = b := by omega
      rw [e]
      exact hqb
    · intro k h1 h2
      rw [getD_drop_add]
      exact hnl (n + k) (by omega) (by omega)
  · exfalso
    have hnl0 : ∀ k, k ≤ b → (c :: rest).getD k 'x' ≠ '\n' := by
      intro k hk
      by_cases hkn : k < n
      · exact hnlm k hkn
      · exact hnl k (by omega) hk
    have := litMatch_maximal hm hqb hnl0 hocc (by omega) (by omega)
    omega

theorem occB_quote_zero (X : List Char) : occB ('"' :: X) 0 = false := by
  rw [occB, List.drop_zero]
  cases hq : qobjChars.isPrefixOf ('"' :: X) with
  | false => rfl
  | true =>
    exfalso
    have hpre := List.isPrefixOf_iff_prefix.mp hq
    have e : qobjChars = 'Q' :: "_OBJECT".data := by decide
    rw [e] at hpre
    exact absurd (List.cons_prefix_cons.mp hpre).1 (by decide)

/-- Main substitution lemma: if every marker occurrence lies inside a
string literal, the substituted text contains no occurrence at all. -/
theorem litSubF_no_occ : ∀ (fuel : Nat) (l : List Char), l.length ≤ fuel →
    OnlyLit l → ∀ j, occB (litSubF fuel l) j = false := by
  intro fuel
  induction fuel with
  | zero =>
    intro l hlen _ j
    have hnil : l = [] := List.eq_nil_of_length_eq_zero (by omega)
    subst hnil
    exact occB_nil j
  | succ f ih =>
    intro l hlen h j
    cases l with
    | nil => exact occB_nil j
    | cons c rest =>
      cases hm : litMatchLen (c :: rest) with
      | none =>
        have hout : litSubF (f + 1) (c :: rest) = c :: litSubF f rest := by
          simp only [litSubF, hm]
        rw [hout]
        cases j with
        | zero =>
          cases hocc : occB (c :: litSubF f rest) 0 with
          | false => rfl
          | true =>
            exfalso
            have hpre : qobjChars <+: (c :: litSubF f rest) := by
              rw [occB, List.drop_zero] at hocc
              exact List.isPrefixOf_iff_prefix.mp hocc
            rw [← hout] at hpre
            have hpre2 : qobjChars <+: (c :: rest) :=
              prefix_litSubF (by decide) (f + 1) _ hpre
            have hocc0 : occB (c :: rest) 0 = true := by
              rw [occB, List.drop_zero]
              exact List.isPrefixOf_iff_prefix.mpr hpre2
            rcases h 0 hocc0 with ⟨a, b, ha, _⟩
            omega
        | succ j2 =>
          rw [occB_shift]
          exact ih rest (by simpa using Nat.le_of_succ_le_succ (by simpa using hlen))
            (onlyLit_tail hm h) j2
      | some n =>
        have hout : litSubF (f + 1) (c :: rest)
            = '"' :: '"' :: litSubF f ((c :: rest).drop n) := by
          simp only [litSubF, hm]
        rw [hout]
        rcases litMatch_facts hm with ⟨_, hn10, hnlen, _, _⟩
        match j with
        | 0 => exact occB_quote_zero _
        | 1 =>
          rw [occB_shift]
          exact occB_quote_zero _
        | (j2 + 2) =>
          rw [occB_shift, occB_shift]
          refine ih ((c :: rest).drop n) ?_ (onlyLit_drop hm h) j2
          rw [List.length_drop]
          rw [List.length_cons] at hnlen ⊢
          rw [List.length_cons] at hlen
          omega

theorem qoSearch_exists_occ {m : List Char} (h : qoSearch m = true) :
    ∃ j, occB m j = true := by
  induction m with
  | nil => simp [qoSearch] at h
  | cons c rest ih =>
    rw [qoSearch] at h
    cases hA : qoAt (c :: rest) with
    | true =>
      refine ⟨1, ?_⟩
      rw [occB_shift, occB]
      simp only [qoAt, Bool.and_eq_true] at hA
      rw [List.drop_zero]
      exact hA.1.2
    | false =>
      rw [hA] at h
      simp only [Bool.false_or] at h
      rcases ih h with ⟨j, hj⟩
      exact ⟨j + 1, by rwa [occB_shift]⟩

/-- Core claim behind the string-literal suppression: if every marker
occurrence of a text lies inside a double-quoted string literal, the
`literal_qobject` substitution leaves nothing for `qo_search` to find. -/
theorem qoSearch_litSub_false {l : List Char} (h : OnlyLit l) :
    qoSearch (litSub l) = false := by
  cases hq : qoSearch (litSub l) with
  | false => rfl
  | true =>
    exfalso
    rcases qoSearch_exists_occ hq with ⟨j, hj⟩
    rw [litSub] at hj
    rw [litSubF_no_occ l.length l le_rfl h j] at hj
    exact Bool.noConfusion hj

theorem findHeader_contents (env : ScanEnv) (opts : MocOptions) (cpp : String) :
    ∀ (exts : List String) (h : String) (hc : List Char),
      findHeader env opts cpp exts = some (h, hc) →
      hc = normalizeContents opts ((env.fs h).getD "") := by
  intro exts
  induction exts with
  | nil => intro h hc hyp; simp [findHeader] at hyp
  | cons e rest ih =>
    intro h hc hyp
    simp only [findHeader] at hyp
    cases hff : find_file env ((splitExtSCons (baseOf cpp)).1 ++ e)
        (pyDirname cpp :: opts.cpppaths) with
    | some fp =>
      rw [hff] at hyp
      simp only [Option.some_inj, Prod.mk.injEq] at hyp
      rw [← hyp.1, ← hyp.2]
    | none =>
      rw [hff] at hyp
      exact ih h hc hyp

/-- Every meta-object step strategy 0 creates comes from a file whose
normalized contents contain the marker macro. -/
theorem strategySimple_steps (env : ScanEnv) (opts : MocOptions)
    (cpp : String) (cppC : List Char) (st : ScanState)
    (hcpp : cppC = normalizeContents opts ((env.fs cpp).getD "")) :
    ∀ step ∈ (automocStrategySimple env opts cpp cppC st).steps,
      step ∈ st.steps ∨
        qoSearch (normalizeContents opts ((env.fs step.src).getD "")) = true := by
  intro step hstep
  cases hh : findHeader env opts cpp headerExts with
  | none =>
    cases hq : qoSearch cppC with
    | false =>
      simp only [automocStrategySimple, hh, hq] at hstep
      exact Or.inl hstep
    | true =>
      simp only [automocStrategySimple, hh, hq, if_pos] at hstep
      rcases List.mem_append.mp hstep with h1 | h1
      · exact Or.inl h1
      · right
        simp only [List.mem_singleton] at h1
        subst h1
        rw [← hcpp]
        exact hq
  | some pr =>
    obtain ⟨h, hc⟩ := pr
    have hhc : hc = normalizeContents opts ((env.fs h).getD "") :=
      findHeader_contents env opts cpp headerExts h hc hh
    cases hqh : qoSearch hc with
    | false =>
      cases hq : qoSearch cppC with
      | false =>
        simp only [automocStrategySimple, hh, hqh, hq, Bool.false_eq_true, if_false]
          at hstep
        exact Or.inl hstep
      | true =>
        simp only [automocStrategySimple, hh, hqh, hq, Bool.false_eq_true,
          if_false, if_pos] at hstep
        rcases List.mem_append.mp hstep with h1 | h1
        · exact Or.inl h1
        · right
          simp only [List.mem_singleton] at h1
          subst h1
          rw [← hcpp]
          exact hq
    | true =>
      have hstep2 : step ∈ (st.steps ++
          [{ bld := .moc5, src := h, tgt := moc5Target env h }]) ++
          (if qoSearch cppC then
            [{ bld := MBuilder.moc5, src := cpp, tgt := moc5Target env cpp }]
           else []) := by
        cases hincl : searchIncM (moc5Target env h).data cppC <;>
          cases hq : qoSearch cppC <;>
            simp_all [automocStrategySimple, hh, hqh]
      rcases List.mem_append.mp hstep2 with h1 | h1
      · rcases List.mem_append.mp h1 with h2 | h2
        · exact Or.inl h2
        · right
          simp only [List.mem_singleton] at h2
          subst h2
          rw [← hhc]
          exact hqh
      · cases hq : qoSearch cppC with
        | false => simp [hq] at h1
        | true =>
          right
          rw [hq, if_pos rfl] at h1
          simp only [List.mem_singleton] at h1
          subst h1
          rw [← hcpp]
          exact hq

theorem includeH_steps (env : ScanEnv) (opts : MocOptions) (cpp : String)
    (cppC : List Char) (hMoc : String) (st : ScanState) :
    ∀ s ∈ (automocIncludeH env opts cpp cppC hMoc st).1.steps,
      s ∈ st.steps ∨
        qoSearch (normalizeContents opts ((env.fs s.src).getD "")) = true := by
  intro s hs
  unfold automocIncludeH at hs
  cases hraw : searchIncRaw hMoc.data cppC with
  | false =>
    rw [hraw] at hs
    simp only [Bool.false_eq_true, if_false] at hs
    exact Or.inl hs
  | true =>
    rw [hraw] at hs
    simp only [if_pos] at hs
    cases hh : findHeader env opts cpp headerExts with
    | none =>
      rw [hh] at hs
      exact Or.inl hs
    | some pr =>
      obtain ⟨h, hc⟩ := pr
      cases hqh : qoSearch hc with
      | false =>
        simp only [hh, hqh, Bool.false_eq_true, if_false] at hs
        exact Or.inl hs
      | true =>
        simp only [hh, hqh, if_pos] at hs
        rcases List.mem_append.mp hs with h1 | h1
        · exact Or.inl h1
        · right
          simp only [List.mem_singleton] at h1
          subst h1
          rw [← findHeader_contents env opts cpp headerExts h hc hh]
          exact hqh

theorem includeCxx_steps (env : ScanEnv) (opts : MocOptions) (cpp : String)
    (cppC : List Char) (cxxMoc : String) (r : ScanState × Bool)
    (st : ScanState)
    (hcpp : cppC = normalizeContents opts ((env.fs cpp).getD ""))
    (hr : ∀ s ∈ r.1.steps, s ∈ st.steps ∨
      qoSearch (normalizeContents opts ((env.fs s.src).getD "")) = true) :
    ∀ s ∈ (automocIncludeCxx cpp cppC cxxMoc r).1.steps,
      s ∈ st.steps ∨
        qoSearch (normalizeContents opts ((env.fs s.src).getD "")) = true := by
  intro s hs
  unfold automocIncludeCxx at hs
  cases hraw : searchIncRaw cxxMoc.data cppC with
  | false =>
    rw [hraw] at hs
    simp only [Bool.false_eq_true, if_false] at hs
    exact hr s hs
  | true =>
    rw [hraw] at hs
    cases hq : qoSearch cppC with
    | false =>
      rw [hq] at hs
      simp only [Bool.false_eq_true, if_false, if_pos] at hs
      exact hr s hs
    | true =>
      rw [hq] at hs
      simp only [if_pos] at hs
      rcases List.mem_append.mp hs with h1 | h1
      · exact hr s h1
      · right
        simp only [List.mem_singleton] at h1
        subst h1
        rw [← hcpp]
        exact hq

/-- Every meta-object step strategy 1 creates comes from a file whose
normalized contents contain the marker macro. -/
theorem strategyInclude_steps (env : ScanEnv) (opts : MocOptions)
    (cpp : String) (cppC : List Char) (st : ScanState)
    (hcpp : cppC = normalizeContents opts ((env.fs cpp).getD "")) :
    ∀ step ∈ (automocStrategyIncludeDriven env opts cpp cppC st).steps,
      step ∈ st.steps ∨
        qoSearch (normalizeContents opts ((env.fs step.src).getD "")) = true := by
  intro step hstep
  unfold automocStrategyIncludeDriven at hstep
  by_cases hext : (splitExtSCons cpp).2 ∈ cxxSuffixes
  · simp only [hext, if_pos] at hstep
    have hres2 := includeCxx_steps env opts cpp cppC
      (env.xmoccxxPre ++ (splitExtSCons (baseOf cpp)).1 ++ env.xmoccxxSuf)
      (automocIncludeH env opts cpp cppC
        (env.xmochPre ++ (splitExtSCons (baseOf cpp)).1 ++ env.xmochSuf) st)
      st hcpp
      (includeH_steps env opts cpp cppC
        (env.xmochPre ++ (splitExtSCons (baseOf cpp)).1 ++ env.xmochSuf) st)
    cases hflag : (automocIncludeCxx cpp cppC
        (env.xmoccxxPre ++ (splitExtSCons (baseOf cpp)).1 ++ env.xmoccxxSuf)
        (automocIncludeH env opts cpp cppC
          (env.xmochPre ++ (splitExtSCons (baseOf cpp)).1 ++ env.xmochSuf) st)).2 with
    | true =>
      rw [hflag] at hstep
      simp only [if_pos] at hstep
      exact hres2 step hstep
    | false =>
      rw [hflag] at hstep
      simp only [Bool.false_eq_true, if_false] at hstep
      rcases strategySimple_steps env opts cpp cppC _ hcpp step hstep with h1 | h1
      · exact hres2 step h1
      · exact Or.inr h1
  · simp only [hext, Bool.false_eq_true, if_false] at hstep
    exact Or.inl hstep

theorem scanObj_steps (env : ScanEnv) (opts : MocOptions) (st : ScanState)
    (obj : SrcEntry) :
    ∀ step ∈ (scanObj env opts st obj).steps,
      step ∈ st.steps ∨
        qoSearch (normalizeContents opts ((env.fs step.src).getD "")) = true := by
  intro step hstep
  cases obj with
  | pystr s =>
    simp only [scanObj] at hstep
    exact Or.inl hstep
  | node n =>
    by_cases hb : n.hasBuilder
    · cases hsrc : n.srcs with
      | nil =>
        simp only [scanObj, hb, hsrc, Bool.not_true, Bool.false_eq_true,
          if_false] at hstep
        exact Or.inl hstep
      | cons cpp rest =>
        by_cases hext : (splitExtSCons cpp).2 ∈ cxxSuffixes
        · cases hfs : env.fs cpp with
          | none =>
            simp only [scanObj, hb, hsrc, hext, hfs, Bool.not_true,
              Bool.false_eq_true, if_false, decide_True, not_true_eq_false] at hstep
            exact Or.inl hstep
          | some contents =>
            have hcpp : normalizeContents opts contents
                = normalizeContents opts ((env.fs cpp).getD "") := by
              rw [hfs]
              rfl
            simp only [scanObj, hb, hsrc, hext, hfs, Bool.not_true,
              Bool.false_eq_true, if_false, decide_True, not_true_eq_false,
              if_pos] at hstep
            by_cases hst : opts.auto_scan_strategy = 0
            · rw [if_pos hst] at hstep
              exact strategySimple_steps env opts cpp _ st hcpp step hstep
            · rw [if_neg hst] at hstep
              exact strategyInclude_steps env opts cpp _ st hcpp step hstep
        · simp only [scanObj, hb, hsrc, hext, Bool.not_false, Bool.false_eq_true,
            if_true, decide_False, not_false_eq_true] at hstep
          exact Or.inl hstep
    · simp only [scanObj, hb, Bool.not_false, if_true] at hstep
      exact Or.inl hstep

theorem foldl_scanObj_steps (env : ScanEnv) (opts : MocOptions) :
    ∀ (l : List SrcEntry) (st : ScanState),
      ∀ step ∈ (l.foldl (scanObj env opts) st).steps,
        step ∈ st.steps ∨
          qoSearch (normalizeContents opts ((env.fs step.src).getD "")) = true := by
  intro l
  induction l with
  | nil => intro st step hstep; exact Or.inl hstep
  | cons x xs ih =>
    intro st step hstep
    rw [List.foldl_cons] at hstep
    rcases ih (scanObj env opts st x) step hstep with h1 | h1
    · exact scanObj_steps env opts st x step h1
    · exact Or.inr h1

/-- C5 amended. With comment-gobbling disabled (its default), a file whose
every occurrence of the marker macro lies inside a double-quoted string
literal never becomes the source of a synthesized meta-object compilation
step, under either scan strategy: the normalization replaces the literal
spans with empty string literals before pattern matching.  (With gobbling
ENABLED the guarantee fails — see the counterexample — because comment
removal can splice a new occurrence together.) -/
theorem automoc_literal_no_step (env : ScanEnv) (source : List SrcEntry)
    (p : String)
    (hg : (create_automoc_options env).gobble_comments = 0)
    (hlit : onlyLitB ((env.fs p).getD "").data = true) :
    ∀ step ∈ (automocCall env source).1.steps, step.src ≠ p := by
  intro step hstep heq
  have hgood : qoSearch (normalizeContents (create_automoc_options env)
      ((env.fs step.src).getD "")) = true := by
    simp only [automocCall] at hstep
    cases hsc : (create_automoc_options env).auto_scan with
    | false =>
      rw [hsc] at hstep
      simp only [Bool.false_eq_true, if_false] at hstep
      exact absurd hstep (List.not_mem_nil step)
    | true =>
      rw [hsc] at hstep
      simp only [if_pos] at hstep
      rcases foldl_scanObj_steps env (create_automoc_options env) source
          { outSources := source, steps := [], depEdges := [], ignored := [] }
          step hstep with h1 | h1
      · exact absurd h1 (List.not_mem_nil step)
      · exact h1
  rw [heq] at hgood
  have hnorm : normalizeContents (create_automoc_options env)
      ((env.fs p).getD "") = litSub ((env.fs p).getD "").data := by
    unfold normalizeContents
    simp only [hg, ne_eq, not_true_eq_false, ite_false, if_neg]
  rw [hnorm, qoSearch_litSub_false (onlyLitB_onlyLit hlit)] at hgood
  exact Bool.noConfusion hgood

def c5wEnv : ScanEnv :=
  { autoscan := "1", strategyVar := "0", gobbleVar := "0", debugVar := "0",
    scanCppPathVar := "1", automocCppPath := [], cppPath := [],
    mochPre := "moc_", mochSuf := ".cc", moccxxPre := "", moccxxSuf := ".moc",
    xmochPre := "moc_", xmochSuf := ".cpp", xmoccxxPre := "", xmoccxxSuf := ".moc",
    objSuf := ".o",
    fs := (fun p =>
      if p = "w.cpp" then some "int y;\n"
      else if p = "w.h" then some "const char *s = \"Q_OBJECT\";\n"
      else if p = "good.cpp" then some "int x;\n"
      else if p = "good.h" then some " Q_OBJECT \n"
      else none) }

/-- Witness for C5's amended theorem: `good.h` (a genuine user of the macro)
produces the scan's only meta-object step, and that step's source is not the
header `w.h` whose only macro occurrence sits inside a string literal. -/
theorem automoc_literal_no_step_witness :
    (⟨MBuilder.moc5, "good.h", "moc_good.cc"⟩ : MocStep)
        ∈ (automocCall c5wEnv [.node ⟨"good.o", true, ["good.cpp"]⟩,
            .node ⟨"w.o", true, ["w.cpp"]⟩]).1.steps
    ∧ (⟨MBuilder.moc5, "good.h", "moc_good.cc"⟩ : MocStep).src ≠ "w.h" :=
  ⟨by decide,
   automoc_literal_no_step c5wEnv
     [.node ⟨"good.o", true, ["good.cpp"]⟩, .node ⟨"w.o", true, ["w.cpp"]⟩]
     "w.h" (by decide) (by decide)
     ⟨MBuilder.moc5, "good.h", "moc_good.cc"⟩ (by decide)⟩

def c5gEnv : ScanEnv :=
  { c5wEnv with
    gobbleVar := "1",
    fs := (fun p =>
      if p = "w.cpp" then some "int y;\n"
      else if p = "w.h" then some "\"Q_OBJECT\" Q_OB/**/JECT;\n"
      else none) }

/-- C5 counterexample. With comment-gobbling enabled, a header whose ONLY
occurrence of the marker macro lies inside a double-quoted string literal
(`"Q_OBJECT" Q_OB/**/JECT;`) DOES trigger a meta-object compilation step:
removing the `/**/` comment splices a fresh `Q_OBJECT` occurrence outside
any literal, so the claim does not hold "regardless of the comment-gobbling
setting". -/
theorem automoc_literal_counterexample :
    onlyLitB "\"Q_OBJECT\" Q_OB/**/JECT;\n".data = true ∧
    (c5gEnv.fs "w.h") = some "\"Q_OBJECT\" Q_OB/**/JECT;\n" ∧
    (automocCall c5gEnv [.node ⟨"w.o", true, ["w.cpp"]⟩]).1.steps
      = [{ bld := .moc5, src := "w.h", tgt := "moc_w.cc" }] := by
  refine ⟨by decide, by decide, by decide⟩

/-! ## Resource Compiler Integration (`__scanResources`) -/

/-- The filesystem below the manifest's directory: `file` is a plain file;
a directory is a sibling chain `cons name child rest` (entry `name` holding
`child`, then the remaining entries `rest`) ending in `nilDir`.  The chain
order is the `os.listdir` order. -/
inductive FSTree where
  | file : FSTree
  | nilDir : FSTree
  | cons (name : String) (child : FSTree) (rest : FSTree) : FSTree
deriving DecidableEq, Repr

def findChild : FSTree → String → Option FSTree
  | .cons name child rest, n => if name = n then some child else findChild rest n
  | _, _ => none

/-- Resolve a relative path, component by component. -/
def resolveT : FSTree → List String → Option FSTree
  | t, [] => some t
  | t, c :: cs =>
    match findChild t c with
    | some child => resolveT child cs
    | none => none

def splitSlashAux : List Char → List Char → List String
  | acc, [] => [⟨acc.reverse⟩]
  | acc, c :: rest =>
    if c = '/' then ⟨acc.reverse⟩ :: splitSlashAux [] rest
    else splitSlashAux (c :: acc) rest

/-- Path components of a relative name (empty components collapse, as in
`os.path`). -/
def comps (rel : String) : List String :=
  (splitSlashAux [] rel.data).filter (fun c => c ≠ "")

/-- `os.path.isdir(os.path.join(qrcpath, rel))` against the tree. -/
def isDirT (world : FSTree) (rel : String) : Bool :=
  match resolveT world (comps rel) with
  | some .file => false
  | some _ => true
  | none => false

/-- `recursiveFiles(basepath, path)`: walk the directory listing in order,
recursing into subdirectories and collecting files, each path relative to
the manifest's directory. -/
def recFiles : FSTree → String → List String
  | .file, _ => []
  | .nilDir, _ => []
  | .cons name child rest, path =>
    (match child with
     | .file => [pyJoin path name]
     | _ => recFiles child (pyJoin path name)) ++ recFiles rest path

def walkAt (world : FSTree) (d : String) : List String :=
  match resolveT world (comps d) with
  | some t => recFiles t d
  | none => []

/-- One match of `<file[^>]*>([^<]*)</file>` at the head of `l`: the
captured group and the number of consumed characters. -/
def qrcMatchAt (l : List Char) : Option (List Char × Nat) :=
  if ("<file".data).isPrefixOf l then
    let r1 := l.drop 5
    let attrs := r1.takeWhile (fun c => c ≠ '>')
    (match r1.drop attrs.length with
     | '>' :: r2 =>
       let cap := r2.takeWhile (fun c => c ≠ '<')
       if ("</file>".data).isPrefixOf (r2.drop cap.length) then
         some (cap, 5 + attrs.length + 1 + cap.length + 7)
       else none
     | _ => none)
  else none

/-- `qrcinclude_re.findall(contents)` (leftmost, non-overlapping). -/
def qrcFindallAux : Nat → List Char → List String
  | 0, _ => []
  | _ + 1, [] => []
  | fuel + 1, c :: rest =>
    match qrcMatchAt (c :: rest) with
    | some (cap, consumed) => ⟨cap⟩ :: qrcFindallAux fuel ((c :: rest).drop consumed)
    | none => qrcFindallAux fuel rest

def qrcFindall (contents : String) : List String :=
  qrcFindallAux contents.data.length contents.data

/-- `__scanResources`: extract the `<file>` element bodies; each name that
resolves to a directory is removed from the list (`includes.remove`, the
first occurrence) and the recursive walk of that directory is appended. -/
def scanResources (contents : String) (world : FSTree) : List String :=
  let includes := qrcFindall contents
  let dirs := includes.filter (fun d => isDirT world d)
  dirs.foldl (fun acc d => (acc.erase d) ++ walkAt world d) includes

/-- Well-formedness of the modelled filesystem: entry names are non-empty,
contain no `/`, and are unique within a directory. -/
def siblingHas : FSTree → String → Bool
  | .cons n _ r, m => n = m || siblingHas r m
  | _, _ => false

def wfTree : FSTree → Bool
  | .file => true
  | .nilDir => true
  | .cons name child rest =>
    decide (name ≠ "") && name.data.all (fun c => c ≠ '/') &&
      wfTree child && wfTree rest && !siblingHas rest name

lemma splitSlashAux_append_slash (xs : List Char) :
    ∀ (acc ys : List Char),
      splitSlashAux acc (xs ++ '/' :: ys)
        = splitSlashAux acc xs ++ splitSlashAux [] ys := by
  induction xs with
  | nil => intro acc ys; simp [splitSlashAux]
  | cons c xs ih =>
    intro acc ys
    by_cases hc : c = '/'
    · subst hc
      rw [List.cons_append]
      rw [show splitSlashAux acc ('/' :: (xs ++ '/' :: ys))
            = ⟨acc.reverse⟩ :: splitSlashAux [] (xs ++ '/' :: ys) from by
          rw [splitSlashAux, if_pos rfl]]
      rw [show splitSlashAux acc ('/' :: xs)
            = ⟨acc.reverse⟩ :: splitSlashAux [] xs from by
          rw [splitSlashAux, if_pos rfl]]
      rw [ih [] ys]
      rfl
    · rw [List.cons_append]
      show splitSlashAux acc (c :: (xs ++ '/' :: ys)) = _
      rw [splitSlashAux, if_neg hc, splitSlashAux, if_neg hc]
      exact ih (c :: acc) ys

lemma splitSlashAux_no_slash (xs : List Char) :
    ∀ (acc : List Char), (∀ c ∈ xs, c ≠ '/') →
      splitSlashAux acc xs = [⟨acc.reverse ++ xs⟩] := by
  induction xs with
  | nil => intro acc _; simp [splitSlashAux]
  | cons c xs ih =>
    intro acc h
    have hc : c ≠ '/' := h c (by simp)
    rw [splitSlashAux, if_neg hc, ih (c :: acc) (fun d hd => h d (by simp [hd]))]
    simp

lemma comps_join (p n : String) (h1 : n ≠ "") (h2 : ∀ c ∈ n.data, c ≠ '/') :
    comps (pyJoin p n) = comps p ++ [n] := by
  by_cases hp : p = ""
  · subst hp
    show comps (pyJoin "" n) = comps "" ++ [n]
    rw [show pyJoin "" n = n from rfl]
    show (splitSlashAux [] n.data).filter (fun c => c ≠ "") = _
    rw [splitSlashAux_no_slash n.data [] h2]
    simp [comps, splitSlashAux]
    exact h1
  · rw [show pyJoin p n = p ++ "/" ++ n from if_neg hp]
    show (splitSlashAux [] (p ++ "/" ++ n).data).filter (fun c => c ≠ "") = _
    have hdata : (p ++ "/" ++ n).data = p.data ++ '/' :: n.data := by
      rw [String.data_append, String.data_append,
          show ("/" : String).data = ['/'] from by decide, List.append_assoc]
      rfl
    have he : (⟨[].reverse ++ n.data⟩ : String) = n := rfl
    rw [hdata, splitSlashAux_append_slash, splitSlashAux_no_slash n.data [] h2,
        List.filter_append, he]
    have hn : List.filter (fun (c : String) => decide (c ≠ "")) [n] = [n] := by
      simp [h1]
    rw [hn]
    rfl

lemma resolveT_append (cs : List String) :
    ∀ (t : FSTree) (n : String),
      resolveT t (cs ++ [n])
        = match resolveT t cs with
          | some u => findChild u n
          | none => none := by
  induction cs with
  | nil =>
    intro t n
    show resolveT t [n] = _
    unfold resolveT
    cases h : findChild t n with
    | none => simp [h]
    | some c => simp [h, resolveT]
  | cons c cs ih =>
    intro t n
    rw [List.cons_append]
    show resolveT t (c :: (cs ++ [n])) = _
    unfold resolveT
    cases h : findChild t c with
    | none => simp
    | some u => simp [ih u n]

lemma findChild_wf (t : FSTree) :
    ∀ (n : String) (c : FSTree), wfTree t = true → findChild t n = some c →
      wfTree c = true := by
  induction t with
  | file => intro n c _ h; exact absurd h (by simp [findChild])
  | nilDir => intro n c _ h; exact absurd h (by simp [findChild])
  | cons name child rest ihc ihr =>
    intro n c hw h
    simp only [wfTree, Bool.and_eq_true] at hw
    obtain ⟨⟨⟨⟨hne, hslash⟩, hwc⟩, hwr⟩, hsib⟩ := hw
    unfold findChild at h
    by_cases he : name = n
    · rw [if_pos he] at h
      cases h
      exact hwc
    · rw [if_neg he] at h
      exact ihr n c hwr h

lemma resolveT_wf (cs : List String) :
    ∀ (t u : FSTree), wfTree t = true → resolveT t cs = some u →
      wfTree u = true := by
  induction cs with
  | nil => intro t u hw h; cases h; exact hw
  | cons c cs ih =>
    intro t u hw h
    unfold resolveT at h
    cases hf : findChild t c with
    | none => rw [hf] at h; exact absurd h (by simp)
    | some v =>
      rw [hf] at h
      exact ih v u (findChild_wf t c v hw hf) h

lemma siblingHas_false_findChild (t : FSTree) (n : String)
    (h : siblingHas t n = false) : findChild t n = none := by
  induction t with
  | file => rfl
  | nilDir => rfl
  | cons name child rest _ ihr =>
    simp only [siblingHas, Bool.or_eq_false_iff] at h
    unfold findChild
    rw [if_neg (by simpa using h.1)]
    exact ihr h.2

/-- Every path produced by `recursiveFiles` resolves to a plain file. The
walked subtree `sub` is related to the directory `t` at `path` through a
`findChild`-inclusion, so the lemma can recurse along sibling chains. -/
lemma recFiles_resolve (world : FSTree) :
    ∀ (sub : FSTree) (path : String) (t : FSTree),
      resolveT world (comps path) = some t →
      wfTree sub = true →
      (∀ n c, findChild sub n = some c → findChild t n = some c) →
      ∀ w ∈ recFiles sub path, resolveT world (comps w) = some .file := by
  intro sub
  induction sub with
  | file => intro path t _ _ _ w hw; exact absurd hw (by simp [recFiles])
  | nilDir => intro path t _ _ _ w hw; exact absurd hw (by simp [recFiles])
  | cons name child rest ihc ihr =>
    intro path t ht hwf hsub w hw
    simp only [wfTree, Bool.and_eq_true] at hwf
    obtain ⟨⟨⟨⟨hne, hslash⟩, hwc⟩, hwr⟩, hsib⟩ := hwf
    have hne' : name ≠ "" := by simpa using hne
    have hslash' : ∀ c ∈ name.data, c ≠ '/' := by simpa using hslash
    have hfc : findChild (.cons name child rest) name = some child := by
      unfold findChild; rw [if_pos rfl]
    have hres : resolveT world (comps (pyJoin path name)) = some child := by
      rw [comps_join path name hne' hslash', resolveT_append, ht]
      exact hsub name child hfc
    unfold recFiles at hw
    rcases List.mem_append.mp hw with hhead | htail
    · cases child with
      | file =>
        simp only [List.mem_singleton] at hhead
        subst hhead
        exact hres
      | nilDir =>
        exact absurd hhead (by simp [recFiles])
      | cons n2 c2 r2 =>
        exact ihc (pyJoin path name) (.cons n2 c2 r2) hres hwc
          (fun n c h => h) w hhead
    · refine ihr path t ht hwr ?_ w htail
      intro n c h
      have hnn : name ≠ n := by
        intro he
        subst he
        rw [siblingHas_false_findChild rest name (by simpa using hsib)] at h
        exact Option.noConfusion h
      have h2 : findChild (.cons name child rest) n = some c := by
        unfold findChild; rw [if_neg hnn]; exact h
      exact hsub n c h2

lemma isDirT_of_file (world : FSTree) (w : String)
    (h : resolveT world (comps w) = some .file) : isDirT world w = false := by
  unfold isDirT
  rw [h]

lemma walkAt_files (world : FSTree) (d : String) (hw : wfTree world = true) :
    ∀ w ∈ walkAt world d, resolveT world (comps w) = some FSTree.file := by
  intro w hmem
  unfold walkAt at hmem
  cases hres : resolveT world (comps d) with
  | none => rw [hres] at hmem; exact absurd hmem (by simp)
  | some t =>
    rw [hres] at hmem
    exact recFiles_resolve world t d t hres (resolveT_wf _ _ _ hw hres)
      (fun n c h => h) w hmem

lemma walkAt_dirfree (world : FSTree) (d : String) (hw : wfTree world = true) :
    ∀ w ∈ walkAt world d, isDirT world w = false :=
  fun w hmem => isDirT_of_file world w (walkAt_files world d hw w hmem)

/-- The directory-expansion loop of `__scanResources`, generalized: `pre`
(already-passed entries) and `w` (already-appended walks) both contain no
directory names, so each `remove` hits the head of the unprocessed part. -/
lemma foldWalk (world : FSTree) (hw : wfTree world = true) :
    ∀ (rest pre w : List String),
      (∀ y ∈ pre, isDirT world y = false) →
      (∀ y ∈ w, isDirT world y = false) →
      (rest.filter (fun d => isDirT world d)).foldl
          (fun acc d => (acc.erase d) ++ walkAt world d) (pre ++ rest ++ w)
        = pre ++ rest.filter (fun n => !isDirT world n) ++ w
          ++ (rest.filter (fun n => isDirT world n)).flatMap (walkAt world) := by
  intro rest
  induction rest with
  | nil => intro pre w _ _; simp
  | cons x rest ih =>
    intro pre w hpre hw2
    by_cases hx : isDirT world x = true
    · have hxpre : x ∉ pre := fun hmem => by
        rw [hpre x hmem] at hx; exact Bool.noConfusion hx
      rw [show List.filter (fun d => isDirT world d) (x :: rest)
            = x :: List.filter (fun d => isDirT world d) rest from by
          simp [List.filter_cons, hx]]
      rw [List.foldl_cons]
      have herase : (pre ++ (x :: rest) ++ w).erase x = pre ++ (rest ++ w) := by
        rw [List.append_assoc, List.erase_append_right _ hxpre,
            show (x :: rest) ++ w = x :: (rest ++ w) from rfl,
            List.erase_cons_head]
      rw [herase]
      have hassoc : pre ++ (rest ++ w) ++ walkAt world x
          = pre ++ rest ++ (w ++ walkAt world x) := by
        simp [List.append_assoc]
      rw [hassoc]
      have hw3 : ∀ y ∈ w ++ walkAt world x, isDirT world y = false := by
        intro y hy
        rcases List.mem_append.mp hy with h1 | h2
        · exact hw2 y h1
        · exact walkAt_dirfree world x hw y h2
      rw [ih pre (w ++ walkAt world x) hpre hw3]
      have hxf : List.filter (fun n => !isDirT world n) (x :: rest)
          = List.filter (fun n => !isDirT world n) rest := by
        simp [List.filter_cons, hx]
      rw [hxf, List.flatMap_cons]
      simp [List.append_assoc]
    · have hx' : isDirT world x = false := by
        cases h : isDirT world x
        · rfl
        · exact absurd h hx
      rw [show List.filter (fun d => isDirT world d) (x :: rest)
            = List.filter (fun d => isDirT world d) rest from by
          simp [List.filter_cons, hx']]
      have hassoc : pre ++ (x :: rest) ++ w = (pre ++ [x]) ++ rest ++ w := by
        simp
      have hpre' : ∀ y ∈ pre ++ [x], isDirT world y = false := by
        intro y hy
        rcases List.mem_append.mp hy with h1 | h2
        · exact hpre y h1
        · simp only [List.mem_singleton] at h2; subst h2; exact hx'
      rw [hassoc, ih (pre ++ [x]) w hpre' hw2]
      have hxf : List.filter (fun n => !isDirT world n) (x :: rest)
          = x :: List.filter (fun n => !isDirT world n) rest := by
        simp [List.filter_cons, hx']
      rw [hxf]
      simp

set_option maxHeartbeats 800000 in
/-- C7: for every resource manifest and (well-formed) filesystem below the
manifest's directory, the `.qrc` scanner returns exactly the names extracted
from the `<file>` elements, except that each name resolving to a directory is
removed and replaced (at the end, in directory order) by the files of an
unbounded recursive walk of that directory, each relative to the manifest's
directory; and no directory name appears in the returned dependency list. -/
theorem scanResources_spec (contents : String) (world : FSTree)
    (hwf : wfTree world = true) :
    scanResources contents world
      = (qrcFindall contents).filter (fun n => !isDirT world n)
        ++ ((qrcFindall contents).filter (fun n => isDirT world n)).flatMap
            (walkAt world)
    ∧ ∀ d, isDirT world d = true → d ∉ scanResources contents world := by
  have hmain : scanResources contents world
      = (qrcFindall contents).filter (fun n => !isDirT world n)
        ++ ((qrcFindall contents).filter (fun n => isDirT world n)).flatMap
            (walkAt world) := by
    unfold scanResources
    have h := foldWalk world hwf (qrcFindall contents) [] []
      (fun y hy => absurd hy (List.not_mem_nil y))
      (fun y hy => absurd hy (List.not_mem_nil y))
    simpa using h
  refine ⟨hmain, ?_⟩
  intro d hd hmem
  rw [hmain] at hmem
  rcases List.mem_append.mp hmem with h1 | h2
  · have := (List.mem_filter.mp h1).2
    rw [hd] at this
    exact Bool.noConfusion this
  · rcases List.mem_flatMap.mp h2 with ⟨a, _, hwa⟩
    have := walkAt_dirfree world a hwf d hwa
    rw [hd] at this
    exact Bool.noConfusion this

def c7World : FSTree :=
  .cons "assets"
    (.cons "a.png" .file (.cons "sub" (.cons "b.png" .file .nilDir) .nilDir))
    .nilDir

theorem scanResources_spec_witness :
    (scanResources "<RCC><file>assets</file></RCC>" c7World
        = (qrcFindall "<RCC><file>assets</file></RCC>").filter
            (fun n => !isDirT c7World n)
          ++ ((qrcFindall "<RCC><file>assets</file></RCC>").filter
                (fun n => isDirT c7World n)).flatMap (walkAt c7World))
    ∧ "assets" ∉ scanResources "<RCC><file>assets</file></RCC>" c7World
    ∧ scanResources "<RCC><file>assets</file></RCC>" c7World
        = ["assets/a.png", "assets/sub/b.png"] :=
  ⟨(scanResources_spec "<RCC><file>assets</file></RCC>" c7World (by decide)).1,
   (scanResources_spec "<RCC><file>assets</file></RCC>" c7World (by decide)).2
     "assets" (by decide),
   by decide⟩

/-! ## Module Enablement (`enable_modules`) and the `Qrc5` wrapper -/

/-- `str.replace(old, new)` (all non-overlapping occurrences, left to
right). -/
def pyReplaceAux (pat rep : List Char) : Nat → List Char → List Char
  | 0, l => l
  | _ + 1, [] => []
  | fuel + 1, c :: rest =>
    if pat.isPrefixOf (c :: rest) then
      rep ++ pyReplaceAux pat rep fuel ((c :: rest).drop pat.length)
    else c :: pyReplaceAux pat rep fuel rest

def pyReplace (s pat rep : String) : String :=
  ⟨pyReplaceAux pat.data rep.data s.data.length s.data⟩

def prependUnique (l : List String) (xs : List String) : List String :=
  (xs.filter (fun x => x ∉ l)) ++ l

/-- The construction variables of the build environment touched by
`enable_modules`. -/
structure BEnv where
  CPPDEFINES : List String
  LIBS : List String
  LIBPATH : List String
  RPATH : List String
  CPPPATH : List String
  QT5_MOCCPPPATH : List String
  QT5DIR : String
  QT5_MOC : String
deriving DecidableEq, Repr

inductive Platform where
  | darwin | linux2 | linux | win32 | other
deriving DecidableEq, Repr

/-- `sys.platform in ["darwin", "linux2", "linux"]`. -/
def platformUnixLike : Platform → Bool
  | .darwin => true
  | .linux2 => true
  | .linux => true
  | _ => false

/-- External effects of `enable_modules`: the platform, `transformToWinePath`
and `ParseConfig` (the `pkg-config` invocation, a function of the module list
acting on the environment). -/
structure EMCtx where
  platform : Platform
  winePath : String → String
  pkgParse : List String → BEnv → BEnv

def validModules : List String := [
  "QtCore", "QtGui", "QtMultimedia", "QtMultimediaQuick_p",
  "QtMultimediaWidgets", "QtNetwork", "QtPlatformSupport", "QtQml",
  "QtQmlDevTools", "QtQuick", "QtQuickParticles", "QtSql", "QtQuickTest",
  "QtTest", "QtWebKit", "QtWebKitWidgets", "QtWebSockets", "QtWidgets",
  "QtConcurrent", "QtDBus", "QtOpenGL", "QtPrintSupport", "QtDeclarative",
  "QtScript", "QtScriptTools", "QtSvg", "QtUiTools", "QtXml",
  "QtXmlPatterns", "QtHelp", "QtDesigner", "QtDesignerComponents",
  "QtCLucene", "QtConcurrent", "QtV8"]

def pclessModules : List String := []
def staticModules : List String := []

def moduleDefines (m : String) : Option (List String) :=
  if m = "QtScript" then some ["QT_SCRIPT_LIB"]
  else if m = "QtSvg" then some ["QT_SVG_LIB"]
  else if m = "QtSql" then some ["QT_SQL_LIB"]
  else if m = "QtXml" then some ["QT_XML_LIB"]
  else if m = "QtOpenGL" then some ["QT_OPENGL_LIB"]
  else if m = "QtGui" then some ["QT_GUI_LIB"]
  else if m = "QtNetwork" then some ["QT_NETWORK_LIB"]
  else if m = "QtCore" then some ["QT_CORE_LIB"]
  else if m = "QtWidgets" then some ["QT_WIDGETS_LIB"]
  else none

/-- The payload of the exception raised on invalid modules: the offending
modules, the valid-module list quoted in the message, and the environment as
it stands when the exception leaves the function. -/
structure EMErr where
  invalid : List String
  valid : List String
  env : BEnv
deriving DecidableEq, Repr

/-- `enable_modules(self, modules, debug, crosscompiling)`.  The result pairs
the final environment with the caller's `modules` list object as it stands
after the call (the function mutates it in place on the win32/cross branch).
`modules.remove(x)` inside `try/except` is `List.erase` (first occurrence,
no-op when absent). -/
def enable_modules (ctx : EMCtx) (env : BEnv) (modules : List String)
    (debug : Bool) (crosscompiling : Bool) :
    Except EMErr (BEnv × List String) :=
  let invalidModules := modules.filter (fun m => m ∉ validModules)
  if invalidModules ≠ [] then
    .error ⟨invalidModules, validModules, env⟩
  else
    let env := modules.foldl (fun e m =>
      match moduleDefines m with
      | some ds => { e with CPPDEFINES := appendUnique e.CPPDEFINES ds }
      | none => e) env
    if platformUnixLike ctx.platform && !crosscompiling then
      let debugSuffix := if debug then "_debug" else ""
      let env := modules.foldl (fun e m =>
        if m ∈ pclessModules then
          let l1 := appendUnique e.LIBS [pyReplace m "Qt" "Qt5" ++ debugSuffix]
          let e := { e with LIBS := l1 }
          let e := { e with LIBPATH := appendUnique e.LIBPATH ["$QT5DIR/lib"] }
          let p1 := appendUnique e.CPPPATH ["$QT5DIR/include"]
          let e := { e with CPPPATH := p1 }
          let p2 := appendUnique e.CPPPATH ["$QT5DIR/include/" ++ m]
          { e with CPPPATH := p2 }
        else e) env
      let pcmodules := (modules.filter (fun m => m ∉ pclessModules)).map
        (fun m => pyReplace m "Qt" "Qt5" ++ debugSuffix)
      let env := if "Qt5DBus" ∈ pcmodules then
          { env with CPPPATH :=
            appendUnique env.CPPPATH ["$QT5DIR/include/Qt5DBus"] }
        else env
      let ep : BEnv × List String :=
        if "Qt5Assistant" ∈ pcmodules then
          ({ env with CPPPATH :=
             appendUnique env.CPPPATH ["$QT5DIR/include/Qt5Assistant"] },
           pcmodules.erase "Qt5Assistant" ++ ["Qt5AssistantClient"])
        else (env, pcmodules)
      let env := { ep.1 with RPATH := appendUnique ep.1.RPATH ["$QT5DIR/lib"] }
      let env := ctx.pkgParse ep.2 env
      let env := { env with QT5_MOCCPPPATH := env.CPPPATH }
      .ok (env, modules)
    else if ctx.platform = .win32 || crosscompiling then
      let et : BEnv × String :=
        if crosscompiling then
          let t := ctx.winePath env.QT5DIR
          ({ env with QT5_MOC := "QT5DIR=" ++ t ++ " " ++ env.QT5_MOC }, t)
        else (env, "")
      let transformedQtdir := et.2
      let cp0 := appendUnique et.1.CPPPATH ["$QT5DIR/include"]
      let env := { et.1 with CPPPATH := cp0 }
      let modules := modules.erase "QtDBus"
      let debugSuffix := if debug then "d" else ""
      let em : BEnv × List String :=
        if "QtAssistant" ∈ modules then
          ({ env with CPPPATH :=
             appendUnique env.CPPPATH ["$QT5DIR/include/QtAssistant"] },
           modules.erase "QtAssistant" ++ ["QtAssistantClient"])
        else (env, modules)
      let env := em.1
      let modules := em.2
      let lb1 := appendUnique env.LIBS ["qtmain" ++ debugSuffix]
      let env := { env with LIBS := lb1 }
      let lb2 := appendUnique env.LIBS
        ((modules.filter (fun l => l ∉ staticModules)).map
          (fun l => pyReplace l "Qt" "Qt5" ++ debugSuffix))
      let env := { env with LIBS := lb2 }
      let lb3 := prependUnique env.LIBS
        ((modules.filter (fun l => l ∈ staticModules)).map
          (fun l => l ++ debugSuffix))
      let env := { env with LIBS := lb3 }
      let env := if "QtOpenGL" ∈ modules then
          { env with LIBS := appendUnique env.LIBS ["opengl32"] }
        else env
      let cp1 := appendUnique env.CPPPATH ["$QT5DIR/include/"]
      let env := { env with CPPPATH := cp1 }
      let cp2 := appendUnique env.CPPPATH
        (modules.map (fun m => "$QT5DIR/include/" ++ m))
      let env := { env with CPPPATH := cp2 }
      let mocpp := env.CPPPATH.map (fun p => pyReplace p "$QT5DIR" transformedQtdir)
      let env := if crosscompiling then
          { env with QT5_MOCCPPPATH := mocpp }
        else { env with QT5_MOCCPPPATH := env.CPPPATH }
      let lp1 := appendUnique env.LIBPATH ["$QT5DIR/lib"]
      let env := { env with LIBPATH := lp1 }
      .ok (env, modules)
    else
      .ok (env, modules)

/-- An SCons wrapper argument: either a single node name or a list of them
(`SCons.Util.is_List` distinguishes the two). -/
inductive PyArg where
  | single (s : String)
  | plist (l : List String)
deriving DecidableEq, Repr

def normArg : PyArg → List String
  | .single s => [s]
  | .plist l => l

/-- Python truthiness of a wrapper argument (`if not source`). -/
def pyFalsyArg : PyArg → Bool
  | .single s => s = ""
  | .plist l => l.isEmpty

/-- `Qrc5(env, target, source=None)`: listify `target`; a missing or falsy
`source` defaults to a copy of `target`; then one `__qrc_builder` call per
`zip(target, source)` pair, results concatenated.  `call t s` stands for the
node list returned by `__qrc_builder.__call__(env, t, str(s))`. -/
def Qrc5 (call : String → String → List String) (target : PyArg)
    (source : Option PyArg) : List String :=
  let t := normArg target
  let s := match source with
    | none => t
    | some src => if pyFalsyArg src then t else normArg src
  (t.zip s).flatMap (fun p => call p.1 p.2)

/-- C8: a call to `enable_modules` whose module list contains a name outside
`validModules` raises an exception whose message carries exactly the
offending modules (in order) and the full valid-module list, and the build
environment is still the caller's untouched environment when the exception
is raised. -/
theorem enable_modules_invalid_error (ctx : EMCtx) (env : BEnv)
    (modules : List String) (debug crosscompiling : Bool)
    (h : ∃ m ∈ modules, m ∉ validModules) :
    enable_modules ctx env modules debug crosscompiling
      = .error ⟨modules.filter (fun m => m ∉ validModules), validModules,
                env⟩ := by
  obtain ⟨m, hm, hnv⟩ := h
  have hne : modules.filter (fun m => m ∉ validModules) ≠ [] := by
    intro hnil
    have h2 := List.filter_eq_nil_iff.mp hnil m hm
    simp at h2
    exact hnv h2
  unfold enable_modules
  rw [if_pos hne]

def c8Ctx : EMCtx := ⟨.linux, fun s => s, fun _ e => e⟩
def c8Env : BEnv := ⟨["D"], ["L"], [], [], ["P"], [], "/opt/qt", "moc"⟩

theorem enable_modules_invalid_error_witness :
    (∃ m ∈ ["QtCore", "QtFancy"], m ∉ validModules)
    ∧ enable_modules c8Ctx c8Env ["QtCore", "QtFancy"] false false
        = .error ⟨["QtFancy"], validModules, c8Env⟩ :=
  ⟨by decide, by
    rw [enable_modules_invalid_error c8Ctx c8Env ["QtCore", "QtFancy"]
      false false (by decide)]
    rfl⟩

def c9Call (t s : String) : List String := [t ++ "|" ++ s]

/-- C9: with a non-falsy explicit source, `Qrc5` runs one resource-builder
call per `zip(target, source)` pair: the number of pairs is the minimum of
the two lengths, pairing is positional, and entries beyond the shorter
sequence produce nothing (and no error — the function is total). -/
theorem qrc5_pairing (call : String → String → List String)
    (target source : PyArg) (hs : pyFalsyArg source = false)
    (hne : (normArg target).length ≠ (normArg source).length) :
    Qrc5 call target (some source)
      = ((normArg target).zip (normArg source)).flatMap
          (fun p => call p.1 p.2)
    ∧ ((normArg target).zip (normArg source)).length
        = min (normArg target).length (normArg source).length
    ∧ ∀ i, i < (normArg target).length → i < (normArg source).length →
        ((normArg target).zip (normArg source)).getD i ("", "")
          = ((normArg target).getD i "", (normArg source).getD i "") := by
  refine ⟨by simp [Qrc5, hs], List.length_zip _ _, ?_⟩
  intro i h1 h2
  have hz : i < ((normArg target).zip (normArg source)).length := by
    rw [List.length_zip]
    exact lt_min h1 h2
  rw [List.getD_eq_getElem _ _ hz, List.getD_eq_getElem _ _ h1,
      List.getD_eq_getElem _ _ h2, List.getElem_zip]

theorem qrc5_pairing_witness :
    pyFalsyArg (.plist ["a.qrc", "b.qrc"]) = false
    ∧ Qrc5 c9Call (.plist ["a.cc", "b.cc", "c.cc"])
        (some (.plist ["a.qrc", "b.qrc"]))
        = ((normArg (.plist ["a.cc", "b.cc", "c.cc"])).zip
            (normArg (.plist ["a.qrc", "b.qrc"]))).flatMap
            (fun p => c9Call p.1 p.2)
    ∧ Qrc5 c9Call (.plist ["a.cc", "b.cc", "c.cc"])
        (some (.plist ["a.qrc", "b.qrc"]))
        = ["a.cc|a.qrc", "b.cc|b.qrc"] :=
  ⟨by decide,
   (qrc5_pairing c9Call (.plist ["a.cc", "b.cc", "c.cc"])
      (.plist ["a.qrc", "b.qrc"]) (by decide) (by decide)).1,
   by decide⟩

def c10Ctx : EMCtx := ⟨.win32, fun s => s, fun _ e => e⟩
def c10Env : BEnv := ⟨[], [], [], [], [], [], "/opt/qt", "moc"⟩

/-- C10 counterexample: `modules.remove("QtDBus")` removes only the first
occurrence, so with `["QtDBus", "QtDBus"]` on the win32 branch the caller's
list still contains `"QtDBus"` after the call — the claim that QtDBus is
removed from the list if present is false for duplicated entries. -/
theorem enable_modules_inplace_counterexample :
    "QtDBus" ∈ (["QtDBus", "QtDBus"] : List String)
    ∧ (enable_modules c10Ctx c10Env ["QtDBus", "QtDBus"] false false).map
        (fun r => r.2) = .ok ["QtDBus"]
    ∧ "QtDBus" ∈ (["QtDBus"] : List String) := ⟨by decide, rfl, by decide⟩

/-- C10 (amended): on a successful call, the caller's modules list is
`modules.erase "QtDBus"` (first occurrence only) on the win32/cross branch
and unchanged on the Unix-like non-cross branch; the claimed
QtAssistant→QtAssistantClient rewrite can never fire, because `QtAssistant`
is not in `validModules`, so validation has already rejected any list
containing it. -/
theorem enable_modules_list_mutation (ctx : EMCtx) (env : BEnv)
    (modules : List String) (debug crosscompiling : Bool)
    (e : BEnv) (ms : List String)
    (hok : enable_modules ctx env modules debug crosscompiling = .ok (e, ms)) :
    "QtAssistant" ∉ modules
    ∧ (platformUnixLike ctx.platform = true → crosscompiling = false →
        ms = modules)
    ∧ (ctx.platform = .win32 ∨ crosscompiling = true →
        ms = modules.erase "QtDBus") := by
  by_cases hval : modules.filter (fun m => m ∉ validModules) = []
  case neg =>
    rw [enable_modules_invalid_error ctx env modules debug crosscompiling ?_]
      at hok
    · exact Except.noConfusion hok
    · rcases List.exists_mem_of_ne_nil _ hval with ⟨m, hm⟩
      have := List.mem_filter.mp hm
      refine ⟨m, this.1, ?_⟩
      simpa using this.2
  case pos =>
  have hvalid : ∀ m ∈ modules, m ∈ validModules := by
    intro m hm
    have h2 := List.filter_eq_nil_iff.mp hval m hm
    simpa using h2
  have hQtA : "QtAssistant" ∉ modules := by
    intro hmem
    have := hvalid _ hmem
    exact absurd this (by decide)
  refine ⟨hQtA, ?_, ?_⟩
  · intro hu hc
    subst hc
    simp only [enable_modules, hval, ne_eq, not_true_eq_false, if_false,
      hu, Bool.not_false, Bool.and_self, if_true, Except.ok.injEq,
      Prod.mk.injEq] at hok
    exact hok.2.symm
  · intro hw
    have hcond : (platformUnixLike ctx.platform && !crosscompiling) = false := by
      rcases hw with h | h
      · rw [h]; rfl
      · rw [h]; simp
    have hcond2 : (decide (ctx.platform = Platform.win32) || crosscompiling)
        = true := by
      rcases hw with h | h
      · rw [h]; simp
      · rw [h]; simp
    have hA : "QtAssistant" ∉ modules.erase "QtDBus" := fun hmem =>
      hQtA (List.mem_of_mem_erase hmem)
    simp only [enable_modules, hval, ne_eq, not_true_eq_false, if_false,
      hcond, Bool.false_eq_true, hcond2, if_true, if_neg hA,
      Except.ok.injEq, Prod.mk.injEq] at hok
    exact hok.2.symm

def c10wPair : BEnv × List String :=
  ((enable_modules c10Ctx c10Env ["QtCore", "QtDBus"] false false).toOption).getD
    (c10Env, [])

theorem enable_modules_list_mutation_witness :
    "QtAssistant" ∉ (["QtCore", "QtDBus"] : List String)
    ∧ c10wPair.2 = (["QtCore", "QtDBus"] : List String).erase "QtDBus"
    ∧ c10wPair.2 = ["QtCore"] :=
  ⟨(enable_modules_list_mutation c10Ctx c10Env ["QtCore", "QtDBus"] false false
      c10wPair.1 c10wPair.2 rfl).1,
   (enable_modules_list_mutation c10Ctx c10Env ["QtCore", "QtDBus"] false false
      c10wPair.1 c10wPair.2 rfl).2.2 (Or.inl rfl),
   by decide⟩

end Qt5
